import Mathlib

/-!
# Verification of the Spotify-to-musical-works matching engine

Shallow embedding of the matching core of `spotify_works_matcher.py`:
the title normalizer (`WorkMatcher._normalize_title`), the similarity scorer
(`WorkMatcher.calculate_title_similarity`, i.e. `difflib.SequenceMatcher.ratio`
with `isjunk = None` and default `autojunk = True`), the per-track aggregator
(`WorkMatcher.match_track`), the batch orchestrator
(`WorkMatcher.match_all_tracks`) and the payload parser (`MLCClient.parse_work`).

Conventions of the embedding:
* Python floats are modelled as `ℚ` (all constants involved — 0.95, 0.85 — and
  all similarity ratios `2*M/T` are exactly representable comparisons here);
* raw JSON-ish payload values are modelled by `PyVal`; Python dicts are
  insertion-ordered association lists;
* the external searches (network) are supplied as candidate-list arguments;
* code that can raise returns `Except String`;
* strings are processed as `List Char`; `str.lower` is modelled on its ASCII
  fragment (all concrete inputs used below are ASCII).
-/

set_option maxRecDepth 8000

namespace SpotifyWorks

/-! ## Python value model -/

/-- A JSON-like Python value, as appears in raw candidate payloads. -/
inductive PyVal where
  | none
  | str (s : String)
  | int (n : Int)
  | bool (b : Bool)
  | list (xs : List PyVal)
  | dict (xs : List (String × PyVal))

/-- Python truthiness (`if value:`). -/
def pyTruthy : PyVal → Bool
  | .none => false
  | .str s => !(s == "")
  | .int n => !(n == 0)
  | .bool b => b
  | .list xs => !xs.isEmpty
  | .dict xs => !xs.isEmpty

/-- `a or b` on Python values: `a` if truthy, else `b`. -/
def pyOr (a b : PyVal) : PyVal := if pyTruthy a then a else b

mutual

/-- Python `repr` of a value (used by `str` on non-string values). -/
def pyRepr : PyVal → String
  | .none => "None"
  | .str s => "'" ++ s ++ "'"
  | .int n => toString n
  | .bool b => if b then "True" else "False"
  | .list xs => "[" ++ String.intercalate ", " (pyReprList xs) ++ "]"
  | .dict xs => "\x7b" ++ String.intercalate ", " (pyReprDict xs) ++ "\x7d"

/-- `repr` of each element of a list. -/
def pyReprList : List PyVal → List String
  | [] => []
  | x :: t => pyRepr x :: pyReprList t

/-- `repr` of each entry of a dict. -/
def pyReprDict : List (String × PyVal) → List String
  | [] => []
  | (k, v) :: t => ("'" ++ k ++ "': " ++ pyRepr v) :: pyReprDict t

end

/-- Python `str()` of a value. -/
def pyStr (v : PyVal) : String :=
  match v with
  | .str s => s
  | v => pyRepr v

/-- `d.get(k, default)` on a Python dict modelled as an association list. -/
def dictGetD (d : List (String × PyVal)) (k : String) (default : PyVal) : PyVal :=
  match d.find? (fun p => p.1 == k) with
  | some p => p.2
  | Option.none => default

/-- `d[k] = v` on a Python dict: replace in place if the key exists, else append. -/
def assocSet {α : Type} (d : List (String × α)) (k : String) (v : α) :
    List (String × α) :=
  match d with
  | [] => [(k, v)]
  | (k', v') :: t => if k' == k then (k, v) :: t else (k', v') :: assocSet t k v

/-- Dict lookup returning an `Option`. -/
def assocGet? {α : Type} (d : List (String × α)) (k : String) : Option α :=
  match d.find? (fun p => p.1 == k) with
  | some p => some p.2
  | Option.none => Option.none

/-- `d1.update(d2)` on Python dicts: set every entry of `d2` into `d1`, in order. -/
def assocUpdate {α : Type} (d₁ d₂ : List (String × α)) : List (String × α) :=
  d₂.foldl (fun d p => assocSet d p.1 p.2) d₁

/-! ## Data model (`SpotifyTrack`, `MusicalWork`, `WorkMatch`) -/

/-- The `SpotifyTrack` dataclass. -/
structure SpotifyTrack where
  track_id : String
  title : String
  artists : List String
  album : String
  isrc : Option String
  duration_ms : Nat
  release_date : Option String
  track_number : Nat
  disc_number : Nat

/-- The `MusicalWork` dataclass. `title`, `iswc`, writers and publishers keep
their raw `PyVal` type: `parse_work` does not force them to strings. -/
structure MusicalWork where
  work_id : String
  title : PyVal
  source : String
  iswc : PyVal
  writers : List PyVal
  publishers : List PyVal
  raw_data : List (String × PyVal)

/-- The `WorkMatch` dataclass. -/
structure WorkMatch where
  spotify_track_id : String
  spotify_title : String
  spotify_isrc : Option String
  work_id : String
  work_title : PyVal
  work_source : String
  iswc : PyVal
  confidence_score : ℚ
  match_method : String
  notes : String

/-- Truthiness of `track.isrc` (an `Optional[str]`): `None` and `""` are falsy. -/
def optStrTruthy : Option String → Bool
  | Option.none => false
  | some s => !(s == "")

/-! ## `MLCClient.parse_work` -/

/-- The writer/publisher name extraction loop: dict entries contribute
`entry.get("name", "")`, string entries contribute themselves, everything
else is skipped; a non-list payload yields no names. -/
def extractNames (data : PyVal) : List PyVal :=
  match data with
  | .list xs =>
    xs.foldr
      (fun w acc =>
        match w with
        | .dict d => dictGetD d "name" (.str "") :: acc
        | .str s => PyVal.str s :: acc
        | _ => acc)
      []
  | _ => []

/-- `MLCClient.parse_work`: `work_id = str(raw.get("property_id") or raw.get("id")
or raw.get("work_id", ""))`, title/iswc taken raw, writers from
`raw.get("writers", []) or raw.get("authors", [])`, publishers from
`raw.get("publishers", [])`. Total: parsing never raises on any dict payload. -/
def parse_work (raw : List (String × PyVal)) : MusicalWork :=
  let idVal := pyOr (dictGetD raw "property_id" .none)
      (pyOr (dictGetD raw "id" .none) (dictGetD raw "work_id" (.str "")))
  { work_id := pyStr idVal
    title := dictGetD raw "title" (.str "")
    source := "MLC"
    iswc := dictGetD raw "iswc" .none
    writers := extractNames
      (pyOr (dictGetD raw "writers" (.list [])) (dictGetD raw "authors" (.list [])))
    publishers := extractNames (dictGetD raw "publishers" (.list []))
    raw_data := raw }

/-! ## `WorkMatcher._normalize_title`

The seven `re.sub(pattern, '', title)` passes followed by `' '.join(title.split())`.
Each substitution is modelled by a character-level left-to-right scan: at every
position, try to match the pattern at that position (Python's leftmost-match
rule); on a match drop the matched span and continue after it, otherwise copy
one character.  `.` in the patterns does not match `'\n'`; `\s*` is greedy and,
being followed by a non-whitespace literal, never benefits from backtracking. -/

/-- Python's `\s` on the ASCII range (also the characters `str.split` splits on). -/
def isPySpace (c : Char) : Bool :=
  c == ' ' || c == '\t' || c == '\n' || c == '\r' || c == '\x0b' || c == '\x0c'

/-- ASCII fragment of `str.lower`. -/
def pyLowerChar (c : Char) : Char :=
  if 65 ≤ c.toNat ∧ c.toNat ≤ 90 then Char.ofNat (c.toNat + 32) else c

/-- Scan for the closing character `c`: the first `c` not blocked by a newline
(`.*?` is minimal and `.` does not match `'\n'`).  Returns the remainder after it. -/
def findClose (c : Char) : List Char → Option (List Char)
  | [] => Option.none
  | x :: t =>
    if x == c then some t
    else if x == '\n' then Option.none
    else findClose c t

/-- Match `\s*O.*?C\s*` at the head of `s`; returns the remainder after the match. -/
def matchPairAt (o c : Char) (s : List Char) : Option (List Char) :=
  match s.dropWhile isPySpace with
  | x :: t =>
    if x == o then (findClose c t).map (fun r => r.dropWhile isPySpace)
    else Option.none
  | [] => Option.none

/-- Match `\s*-\s*KW.*` at the head of `s` (`.*` consumes to the end of the line);
returns the remainder after the match. -/
def matchHyphAt (kw : List Char) (s : List Char) : Option (List Char) :=
  match s.dropWhile isPySpace with
  | x :: t =>
    if x == '-' then
      let t' := t.dropWhile isPySpace
      if kw.isPrefixOf t' then some ((t'.drop kw.length).dropWhile (fun c => !(c == '\n')))
      else Option.none
    else Option.none
  | [] => Option.none

/-- Match `\s*KW.*` at the head of `s` (for the `feat.` / `ft.` patterns);
returns the remainder after the match. -/
def matchPlainAt (kw : List Char) (s : List Char) : Option (List Char) :=
  let t := s.dropWhile isPySpace
  if kw.isPrefixOf t then some ((t.drop kw.length).dropWhile (fun c => !(c == '\n')))
  else Option.none

/-- `re.sub(pattern, '', s)` for a pattern whose match-at-a-position is decided
by `m`: drop each leftmost match, copy unmatched characters.  Fueled; every
step consumes at least one character, so fuel `s.length` always suffices. -/
def subGo (m : List Char → Option (List Char)) : Nat → List Char → List Char
  | 0, s => s
  | _ + 1, [] => []
  | fuel + 1, x :: t =>
    match m (x :: t) with
    | some r => subGo m fuel r
    | Option.none => x :: subGo m fuel t

/-- One whole-string substitution pass. -/
def subAll (m : List Char → Option (List Char)) (s : List Char) : List Char :=
  subGo m s.length s

/-- `' '.join(s.split())` after the leading whitespace has been dropped:
collapse whitespace runs to single spaces, drop a trailing run. -/
def collapseGo : Nat → List Char → List Char
  | 0, s => s
  | _ + 1, [] => []
  | fuel + 1, x :: t =>
    if isPySpace x then
      match t.dropWhile isPySpace with
      | [] => []
      | y :: t' => ' ' :: collapseGo fuel (y :: t')
    else x :: collapseGo fuel t

/-- `' '.join(s.split())`. -/
def collapse (s : List Char) : List Char :=
  collapseGo s.length (s.dropWhile isPySpace)

/-- `WorkMatcher._normalize_title` on a character list. -/
def normalizeTitleL (s : List Char) : List Char :=
  let s1 := s.map pyLowerChar
  let s2 := subAll (matchPairAt '(' ')') s1
  let s3 := subAll (matchPairAt '[' ']') s2
  let s4 := subAll (matchHyphAt "remaster".data) s3
  let s5 := subAll (matchHyphAt "remix".data) s4
  let s6 := subAll (matchHyphAt "live".data) s5
  let s7 := subAll (matchPlainAt "feat.".data) s6
  let s8 := subAll (matchPlainAt "ft.".data) s7
  collapse s8

/-- `WorkMatcher._normalize_title`. -/
def normalize_title (s : String) : String := String.mk (normalizeTitleL s.data)

/-! ## `difflib.SequenceMatcher` (as used: `isjunk = None`, `autojunk = True`)

`calculate_title_similarity` builds `SequenceMatcher(None, t1, t2).ratio()` on
the two normalized titles.  `ratio` is `2*M/(len(a)+len(b))` where `M` is the
total size of the matching blocks found by `get_matching_blocks`.  With
`isjunk = None` the junk set `bjunk` is empty, so the two junk-gated extension
loops of `find_longest_match` never fire and are omitted; `autojunk` still
purges "popular" elements from `b2j` when `len(b) >= 200`. -/

/-- `b2j.setdefault(elt, []).append(i)`. -/
def b2jInsert (d : List (Char × List Nat)) (c : Char) (i : Nat) : List (Char × List Nat) :=
  match d with
  | [] => [(c, [i])]
  | (c', is) :: t => if c' == c then (c', is ++ [i]) :: t else (c', is) :: b2jInsert t c i

/-- The raw `b2j` map: character → ascending list of its indices in `b`. -/
def b2jRaw (b : List Char) : List (Char × List Nat) :=
  (b.enum).foldl (fun d p => b2jInsert d p.2 p.1) []

/-- `__chain_b` with `isjunk = None`: build `b2j` and, when `len(b) >= 200`,
delete the popular elements (more than `len(b) // 100 + 1` occurrences). -/
def b2jBuild (b : List Char) : List (Char × List Nat) :=
  let d := b2jRaw b
  let n := b.length
  if n ≥ 200 then d.filter (fun p => p.2.length ≤ n / 100 + 1) else d

/-- `b2j.get(c, [])`. -/
def b2jGet (d : List (Char × List Nat)) (c : Char) : List Nat :=
  match d.find? (fun p => p.1 == c) with
  | some p => p.2
  | Option.none => []

/-- Inner loop of `find_longest_match` over the `b`-indices of `a[i]`, with
Python's `continue` (`j < blo`), `break` (`j >= bhi`), the `newj2len` chain
update `k = j2len.get(j-1, 0) + 1` (where `j2len.get(-1, 0) = 0` when `j = 0`)
and the strict best update.  State: `(besti, bestj, bestsize)` and `newj2len`. -/
def flmInner (blo bhi i : Nat) (j2len : Nat → Nat) :
    List Nat → ((Nat × Nat × Nat) × (Nat → Nat)) → ((Nat × Nat × Nat) × (Nat → Nat))
  | [], st => st
  | j :: js, st =>
    if j < blo then flmInner blo bhi i j2len js st
    else if bhi ≤ j then st
    else
      let k := (if j = 0 then 0 else j2len (j - 1)) + 1
      let nj : Nat → Nat := fun j' => if j' = j then k else st.2 j'
      let best := if st.1.2.2 < k then (i + 1 - k, j + 1 - k, k) else st.1
      flmInner blo bhi i j2len js (best, nj)

/-- The row loop `for i in range(alo, ahi)` of `find_longest_match`. -/
def flmRows (a : List Char) (b2j : List (Char × List Nat)) (blo bhi : Nat) :
    List Nat → ((Nat × Nat × Nat) × (Nat → Nat)) → (Nat × Nat × Nat)
  | [], st => st.1
  | i :: is, st =>
    let st' := flmInner blo bhi i st.2 (b2jGet b2j (a.getD i '\x00')) (st.1, fun _ => 0)
    flmRows a b2j blo bhi is st'

/-- The backward extension loop (no junk: `bjunk` is empty).  Fuel bounds the
iteration count; `besti` itself always suffices since `besti` decreases. -/
def extendBack (a b : List Char) (alo blo : Nat) : Nat → (Nat × Nat × Nat) → (Nat × Nat × Nat)
  | 0, st => st
  | fuel + 1, (bi, bj, sz) =>
    if alo < bi ∧ blo < bj ∧ a.getD (bi - 1) '\x00' == b.getD (bj - 1) '\x01' then
      extendBack a b alo blo fuel (bi - 1, bj - 1, sz + 1)
    else (bi, bj, sz)

/-- The forward extension loop (no junk).  Fuel `ahi` always suffices since
`bi + sz` increases while staying below `ahi`. -/
def extendFwd (a b : List Char) (ahi bhi : Nat) : Nat → (Nat × Nat × Nat) → (Nat × Nat × Nat)
  | 0, st => st
  | fuel + 1, (bi, bj, sz) =>
    if bi + sz < ahi ∧ bj + sz < bhi ∧ a.getD (bi + sz) '\x00' == b.getD (bj + sz) '\x01' then
      extendFwd a b ahi bhi fuel (bi, bj, sz + 1)
    else (bi, bj, sz)

/-- `SequenceMatcher.find_longest_match(alo, ahi, blo, bhi)` with empty junk. -/
def findLongestMatch (a b : List Char) (b2j : List (Char × List Nat))
    (alo ahi blo bhi : Nat) : Nat × Nat × Nat :=
  let best := flmRows a b2j blo bhi (List.range' alo (ahi - alo)) ((alo, blo, 0), fun _ => 0)
  let best := extendBack a b alo blo best.1 best
  extendFwd a b ahi bhi ahi best

/-- Total size of the matching blocks of `get_matching_blocks` on a subrange:
the recursion splits around each longest match; the processing order of the
queue does not affect the sum.  Fueled; each level strictly decreases
`(ahi - alo) + (bhi - blo)`, so fuel `la + lb + 1` always suffices. -/
def msum (a b : List Char) (b2j : List (Char × List Nat)) :
    Nat → Nat × Nat × Nat × Nat → Nat
  | 0, _ => 0
  | fuel + 1, (alo, ahi, blo, bhi) =>
    match findLongestMatch a b b2j alo ahi blo bhi with
    | (i, j, k) =>
      if k = 0 then 0
      else
        k + (if alo < i ∧ blo < j then msum a b b2j fuel (alo, i, blo, j) else 0)
          + (if i + k < ahi ∧ j + k < bhi then msum a b b2j fuel (i + k, ahi, j + k, bhi) else 0)

/-- `SequenceMatcher(None, a, b).ratio()` as an exact rational:
`2*M/(la+lb)`, and `1.0` when both sequences are empty.  (`mkRat (2*M) (la+lb)`
is the same rational as `2*M/(la+lb)`, see `ratioL_eq_div`; it is used because
it evaluates by kernel reduction.) -/
def ratioL (a b : List Char) : ℚ :=
  let la := a.length
  let lb := b.length
  if la + lb = 0 then 1
  else mkRat (2 * msum a b (b2jBuild b) (la + lb + 1) (0, la, 0, lb)) (la + lb)

/-- `WorkMatcher.calculate_title_similarity` on two genuine strings. -/
def calculate_title_similarity (t1 t2 : String) : ℚ :=
  ratioL (normalizeTitleL t1.data) (normalizeTitleL t2.data)

/-- Evaluating the similarity of a track title against a raw work title:
`_normalize_title` calls `title.lower()`, which raises `AttributeError`
when the payload's title is not a string. -/
def calcSimPy (t1 : String) (t2 : PyVal) : Except String ℚ :=
  match t2 with
  | .str s => .ok (calculate_title_similarity t1 s)
  | _ => .error "AttributeError: object has no attribute lower"

/-! ## `WorkMatcher.match_track` and `WorkMatcher.match_all_tracks`

The external searches (`MLCClient.search_by_isrc`, `MLCClient.search_by_title`)
are network calls; the aggregator is modelled over the raw candidate lists they
return.  A raw candidate is a dict payload. -/

/-- `TITLE_MATCH_THRESHOLD = 0.85` (written `mkRat 85 100`, the same rational,
for kernel evaluability; see `TITLE_MATCH_THRESHOLD_eq`). -/
def TITLE_MATCH_THRESHOLD : ℚ := mkRat 85 100

theorem TITLE_MATCH_THRESHOLD_eq : TITLE_MATCH_THRESHOLD = 0.85 := by
  norm_num [TITLE_MATCH_THRESHOLD, Rat.mkRat_eq_div]

/-- The `WorkMatch` built in the ISRC branch: fixed confidence `0.95`,
method `"ISRC"`, notes `"Matched via ISRC"`. -/
def mkExactMatch (t : SpotifyTrack) (w : MusicalWork) : WorkMatch :=
  { spotify_track_id := t.track_id
    spotify_title := t.title
    spotify_isrc := t.isrc
    work_id := w.work_id
    work_title := w.title
    work_source := w.source
    iswc := w.iswc
    confidence_score := mkRat 95 100  -- 0.95
    match_method := "ISRC"
    notes := "Matched via ISRC" }

/-- The `WorkMatch` built in the title branch: confidence `similarity * 0.85`,
method `"Title+Artist"`.  (The percentage formatting inside the notes string
is not modelled.) -/
def mkFuzzyMatch (t : SpotifyTrack) (w : MusicalWork) (sim : ℚ) : WorkMatch :=
  { spotify_track_id := t.track_id
    spotify_title := t.title
    spotify_isrc := t.isrc
    work_id := w.work_id
    work_title := w.title
    work_source := w.source
    iswc := w.iswc
    confidence_score := sim * mkRat 85 100  -- similarity * 0.85
    match_method := "Title+Artist"
    notes := "Title similarity" }

/-- Strategy 1 of `match_track` (the body of the `if track.isrc:` block): every
candidate returned by the ISRC search is parsed, written into `works_dict`
(overwriting any previous entry with the same id), and yields a match record;
the candidate's own identifiers are never compared with the track's ISRC. -/
def exactPass (t : SpotifyTrack) (isrcResults : List (List (String × PyVal))) :
    List WorkMatch × List (String × MusicalWork) :=
  isrcResults.foldl
    (fun acc raw =>
      let w := parse_work raw
      (acc.1 ++ [mkExactMatch t w], assocSet acc.2 w.work_id w))
    ([], [])

/-- Strategy 2 of `match_track` (the title-search loop): compute the similarity
(which can raise for a non-string title), accept at `>= TITLE_MATCH_THRESHOLD`,
skip candidates whose work id is already among the accumulated matches. -/
def fuzzyPass (t : SpotifyTrack) :
    List (List (String × PyVal)) → List WorkMatch × List (String × MusicalWork) →
      Except String (List WorkMatch × List (String × MusicalWork))
  | [], acc => .ok acc
  | raw :: rest, acc =>
    let w := parse_work raw
    match calcSimPy t.title w.title with
    | .error e => .error e
    | .ok sim =>
      if TITLE_MATCH_THRESHOLD ≤ sim then
        if acc.1.any (fun m => m.work_id == w.work_id) then fuzzyPass t rest acc
        else fuzzyPass t rest (acc.1 ++ [mkFuzzyMatch t w sim], assocSet acc.2 w.work_id w)
      else fuzzyPass t rest acc

/-- Stable insertion (descending by confidence): a later element goes after all
elements of greater-or-equal confidence. -/
def insertDesc (m : WorkMatch) : List WorkMatch → List WorkMatch
  | [] => [m]
  | x :: t =>
    if x.confidence_score < m.confidence_score then m :: x :: t
    else x :: insertDesc m t

/-- `matches.sort(key=lambda m: m.confidence_score, reverse=True)`: Python's
sort is stable, and the stable descending order is unique, so a stable
insertion sort computes the same list. -/
def sortMatches (ms : List WorkMatch) : List WorkMatch :=
  ms.foldl (fun acc m => insertDesc m acc) []

/-- `WorkMatcher.match_track`, with the two external searches supplied as
candidate lists.  Strategy 1 runs only when `track.isrc` is truthy; strategy 2
runs only when fewer than 2 matches were found (`not matches or len(matches) < 2`);
the final list is sorted by confidence descending. -/
def match_track (t : SpotifyTrack)
    (isrcResults titleResults : List (List (String × PyVal))) :
    Except String (List WorkMatch × List (String × MusicalWork)) :=
  let st := if optStrTruthy t.isrc then exactPass t isrcResults else ([], [])
  match (if st.1.isEmpty || st.1.length < 2 then fuzzyPass t titleResults st else .ok st) with
  | .error e => .error e
  | .ok (ms, wd) => .ok (sortMatches ms, wd)

/-- The accumulation loop of `match_all_tracks`: `all_matches.extend(matches)`
and `all_works.update(works)` per track. -/
def matchAllGo
    (lookup : SpotifyTrack →
      List (List (String × PyVal)) × List (List (String × PyVal))) :
    List SpotifyTrack → List WorkMatch × List (String × MusicalWork) →
      Except String (List WorkMatch × List (String × MusicalWork))
  | [], acc => .ok acc
  | tr :: rest, acc =>
    match match_track tr (lookup tr).1 (lookup tr).2 with
    | .error e => .error e
    | .ok (ms, ws) => matchAllGo lookup rest (acc.1 ++ ms, assocUpdate acc.2 ws)

/-- `WorkMatcher.match_all_tracks`, with the per-track search results supplied
by `lookup`. -/
def match_all_tracks
    (lookup : SpotifyTrack →
      List (List (String × PyVal)) × List (List (String × PyVal)))
    (tracks : List SpotifyTrack) :
    Except String (List WorkMatch × List (String × MusicalWork)) :=
  matchAllGo lookup tracks ([], [])

/-! ## Basic lemmas about the embedded operations -/

theorem assocGet?_assocSet {α : Type} (d : List (String × α)) (k k' : String) (v : α) :
    assocGet? (assocSet d k v) k' = if k' = k then some v else assocGet? d k' := by
  induction d with
  | nil =>
    simp only [assocSet, assocGet?, List.find?]
    by_cases h : k' = k
    · simp [h]
    · simp [h, show (k == k') = false by simpa [beq_iff_eq] using fun e => h e.symm]
  | cons p t ih =>
    obtain ⟨pk, pv⟩ := p
    simp only [assocSet]
    by_cases hpk : pk = k
    · subst hpk
      by_cases h : k' = pk
      · subst h
        simp [assocGet?, List.find?, beq_iff_eq]
      · simp [assocGet?, List.find?, beq_iff_eq, h,
          show (pk == k') = false by simpa [beq_iff_eq] using fun e => h e.symm]
    · have hbk : (pk == k) = false := by simpa [beq_iff_eq] using hpk
      simp only [hbk, if_neg (by simpa using hpk)]
      by_cases h : k' = pk
      · subst h
        simp [assocGet?, List.find?, beq_iff_eq, hpk,
          if_neg (show ¬ k' = k from hpk)]
      · have hbk' : (pk == k') = false := by
          simpa [beq_iff_eq] using fun e => h e.symm
        simp only [assocGet?, List.find?, hbk']
        simpa [assocGet?] using ih

theorem insertDesc_perm (m : WorkMatch) (l : List WorkMatch) :
    (insertDesc m l).Perm (m :: l) := by
  induction l with
  | nil => simp [insertDesc]
  | cons x t ih =>
    by_cases h : x.confidence_score < m.confidence_score
    · simp [insertDesc, h]
    · simp only [insertDesc, if_neg h]
      exact (ih.cons x).trans (List.Perm.swap m x t)

theorem foldl_insertDesc_perm :
    ∀ (ms acc : List WorkMatch),
      (ms.foldl (fun acc m => insertDesc m acc) acc).Perm (acc ++ ms) := by
  intro ms
  induction ms with
  | nil => intro acc; simp
  | cons m t ih =>
    intro acc
    have h1 := ih (insertDesc m acc)
    have h2 : (insertDesc m acc ++ t).Perm (acc ++ m :: t) := by
      have := (insertDesc_perm m acc).append_right t
      exact this.trans (List.perm_middle.symm)
    simpa using h1.trans h2

theorem sortMatches_perm (ms : List WorkMatch) : (sortMatches ms).Perm ms := by
  simpa using foldl_insertDesc_perm ms []

theorem exactPass_fst (t : SpotifyTrack) :
    ∀ (res : List (List (String × PyVal))) (acc : List WorkMatch × List (String × MusicalWork)),
      (res.foldl
        (fun acc raw =>
          let w := parse_work raw
          (acc.1 ++ [mkExactMatch t w], assocSet acc.2 w.work_id w)) acc).1 =
        acc.1 ++ res.map (fun raw => mkExactMatch t (parse_work raw)) := by
  intro res
  induction res with
  | nil => intro acc; simp
  | cons raw rest ih =>
    intro acc
    simp only [List.foldl_cons, List.map_cons]
    rw [ih]
    simp

theorem exactPass_matches (t : SpotifyTrack) (res : List (List (String × PyVal))) :
    (exactPass t res).1 = res.map (fun raw => mkExactMatch t (parse_work raw)) := by
  simpa using exactPass_fst t res ([], [])

/-- Provenance of a record added by the title-fuzzy pass: it comes from one of
the title-search candidates, its similarity was computed without raising and
passed the threshold, and the record is exactly the one `mkFuzzyMatch` builds. -/
def FuzzyFrom (t : SpotifyTrack) (trs : List (List (String × PyVal)))
    (m : WorkMatch) : Prop :=
  ∃ raw ∈ trs, ∃ s : ℚ,
    calcSimPy t.title (parse_work raw).title = .ok s ∧
    TITLE_MATCH_THRESHOLD ≤ s ∧ m = mkFuzzyMatch t (parse_work raw) s

theorem fuzzyFrom_mono (t : SpotifyTrack) (raw : List (String × PyVal))
    (trs : List (List (String × PyVal))) (m : WorkMatch)
    (h : FuzzyFrom t trs m) : FuzzyFrom t (raw :: trs) m := by
  obtain ⟨r, hr, s, hs⟩ := h
  exact ⟨r, List.mem_cons_of_mem _ hr, s, hs⟩

/-- Master invariant of the title-fuzzy loop: on success it appends a list of
records, each of documented provenance, each with a work id distinct from every
already-accumulated record's, and with pairwise-distinct work ids. -/
theorem fuzzyPass_spec (t : SpotifyTrack) :
    ∀ (rs : List (List (String × PyVal)))
      (acc out : List WorkMatch × List (String × MusicalWork)),
      fuzzyPass t rs acc = .ok out →
      ∃ added : List WorkMatch,
        out.1 = acc.1 ++ added ∧
        (∀ m ∈ added, FuzzyFrom t rs m ∧ ∀ m' ∈ acc.1, ¬ m'.work_id = m.work_id) ∧
        added.Pairwise (fun m1 m2 => ¬ m1.work_id = m2.work_id) := by
  intro rs
  induction rs with
  | nil =>
    intro acc out h
    simp only [fuzzyPass] at h
    cases h
    exact ⟨[], by simp, by simp, by simp⟩
  | cons raw rest ih =>
    intro acc out h
    simp only [fuzzyPass] at h
    set w := parse_work raw with hw
    cases hsim : calcSimPy t.title w.title with
    | error e => rw [hsim] at h; exact absurd h (by simp)
    | ok sim =>
      rw [hsim] at h
      dsimp only at h
      by_cases hth : TITLE_MATCH_THRESHOLD ≤ sim
      · rw [if_pos hth] at h
        by_cases hdup : acc.1.any (fun m => m.work_id == w.work_id)
        · rw [if_pos hdup] at h
          obtain ⟨added, h1, h2, h3⟩ := ih acc out h
          exact ⟨added, h1, fun m hm => ⟨fuzzyFrom_mono t raw rest m ((h2 m hm).1),
            (h2 m hm).2⟩, h3⟩
        · rw [if_neg hdup] at h
          obtain ⟨added, h1, h2, h3⟩ :=
            ih (acc.1 ++ [mkFuzzyMatch t w sim], assocSet acc.2 w.work_id w) out h
          refine ⟨mkFuzzyMatch t w sim :: added, by simpa using h1, ?_, ?_⟩
          · intro m hm
            rcases List.mem_cons.mp hm with hm | hm
            · subst hm
              refine ⟨⟨raw, List.mem_cons_self _ _, sim, hsim, hth, rfl⟩, ?_⟩
              intro m' hm' he
              apply hdup
              exact List.any_eq_true.mpr ⟨m', hm', beq_iff_eq.mpr he⟩
            · have := h2 m hm
              exact ⟨fuzzyFrom_mono t raw rest m this.1,
                fun m' hm' => this.2 m' (by simp [hm'])⟩
          · refine List.pairwise_cons.mpr ⟨?_, h3⟩
            intro m hm
            exact (h2 m hm).2 (mkFuzzyMatch t w sim) (by simp)
      · rw [if_neg hth] at h
        obtain ⟨added, h1, h2, h3⟩ := ih acc out h
        exact ⟨added, h1, fun m hm => ⟨fuzzyFrom_mono t raw rest m ((h2 m hm).1),
          (h2 m hm).2⟩, h3⟩

/-- Decomposition of a successful `match_track` call: up to the final stable
sort, the match list is the exact-pass records (one per ISRC-search candidate
when the track's ISRC is truthy, none otherwise) followed by the fuzzy-pass
additions with their invariants. -/
theorem match_track_decomp (t : SpotifyTrack)
    (ir tr : List (List (String × PyVal)))
    (ms : List WorkMatch) (wd : List (String × MusicalWork))
    (h : match_track t ir tr = .ok (ms, wd)) :
    ∃ ex added : List WorkMatch,
      ms.Perm (ex ++ added) ∧
      (∀ m ∈ ex, ∃ raw ∈ ir, m = mkExactMatch t (parse_work raw)) ∧
      (∀ m ∈ added, FuzzyFrom t tr m ∧ ∀ m' ∈ ex, ¬ m'.work_id = m.work_id) ∧
      added.Pairwise (fun m1 m2 => ¬ m1.work_id = m2.work_id) ∧
      (optStrTruthy t.isrc = true →
        ex = ir.map (fun raw => mkExactMatch t (parse_work raw))) ∧
      (optStrTruthy t.isrc = false → ex = []) := by
  unfold match_track at h
  dsimp only at h
  set st := if optStrTruthy t.isrc then exactPass t ir else ([], []) with hst
  have hex : ∀ m ∈ st.1, ∃ raw ∈ ir, m = mkExactMatch t (parse_work raw) := by
    intro m hm
    by_cases hi : optStrTruthy t.isrc
    · rw [hst, if_pos hi, exactPass_matches] at hm
      obtain ⟨raw, hraw, hmr⟩ := List.mem_map.mp hm
      exact ⟨raw, hraw, hmr.symm⟩
    · rw [hst, if_neg hi] at hm
      simp at hm
  have hext : optStrTruthy t.isrc = true →
      st.1 = ir.map (fun raw => mkExactMatch t (parse_work raw)) := by
    intro hi
    rw [hst, if_pos hi, exactPass_matches]
  have hexf : optStrTruthy t.isrc = false → st.1 = [] := by
    intro hi
    rw [hst, if_neg (by simp [hi])]
  by_cases hg : (st.1.isEmpty || decide (st.1.length < 2)) = true
  · rw [if_pos hg] at h
    cases hfz : fuzzyPass t tr st with
    | error e => rw [hfz] at h; exact absurd h (by simp)
    | ok out =>
      rw [hfz] at h
      obtain ⟨out1, out2⟩ := out
      simp only [Except.ok.injEq, Prod.mk.injEq] at h
      obtain ⟨hms, hwd⟩ := h
      obtain ⟨added, h1, h2, h3⟩ := fuzzyPass_spec t tr st (out1, out2) hfz
      refine ⟨st.1, added, ?_, hex, h2, h3, hext, hexf⟩
      rw [← hms, ← h1]
      exact sortMatches_perm out1
  · rw [if_neg hg] at h
    simp only [Except.ok.injEq, Prod.mk.injEq] at h
    obtain ⟨hms, hwd⟩ := h
    refine ⟨st.1, [], ?_, hex, by simp, by simp, hext, hexf⟩
    rw [← hms]
    simpa using sortMatches_perm st.1

/-! ## Fixtures for concrete evaluations -/

/-- A track fixture with the fields the matcher reads. -/
def mkTrack (id title : String) (isrc : Option String) : SpotifyTrack :=
  { track_id := id, title := title, artists := [], album := "",
    isrc := isrc, duration_ms := 0, release_date := Option.none,
    track_number := 1, disc_number := 1 }

def c1Track : SpotifyTrack := mkTrack "T1" "Song" (some "USCM51800011")

/-- A candidate payload carrying no recording code of any kind. -/
def c1Payload : List (String × PyVal) :=
  [("id", PyVal.str "W1"), ("title", PyVal.str "Completely Different")]

/-! ## Claim C1 -/

/-- C1, counterexample.  The claim says the exact-identifier strategy produces
a record only when the candidate's associated code is present and equal (after
trimming) to the recording's code.  Here the recording carries an ISRC but
the candidate payload has no code field whatsoever (`find?` of any code key is
`none` — its keys are just `id` and `title`), yet `match_track` produces an
exact-code record for it, with confidence 0.95 and method `"ISRC"`. -/
theorem C1_counterexample :
    match_track c1Track [c1Payload] [] =
      .ok ([mkExactMatch c1Track (parse_work c1Payload)],
        [("W1", parse_work c1Payload)]) ∧
    (mkExactMatch c1Track (parse_work c1Payload)).match_method = "ISRC" ∧
    (mkExactMatch c1Track (parse_work c1Payload)).confidence_score = 0.95 ∧
    c1Payload.find? (fun p => p.1 == "isrc") = Option.none ∧
    c1Payload.find? (fun p => p.1 == "iswc") = Option.none :=
  ⟨rfl, rfl, by norm_num [mkExactMatch, Rat.mkRat_eq_div], rfl, rfl⟩

/-- C1, amended.  The exact-identifier pass never inspects the candidate's own
codes: whenever the recording's ISRC is truthy, it emits exactly one record per
candidate returned by the ISRC search — always with confidence 0.95, method
`"ISRC"`, notes `"Matched via ISRC"` — and when the ISRC is absent or empty no
`"ISRC"`-method record is ever produced. -/
theorem C1_amended (t : SpotifyTrack) (ir tr : List (List (String × PyVal))) :
    ((exactPass t ir).1 = ir.map (fun raw => mkExactMatch t (parse_work raw))) ∧
    (∀ m ∈ (exactPass t ir).1,
      m.confidence_score = 0.95 ∧ m.match_method = "ISRC" ∧ m.notes = "Matched via ISRC") ∧
    (optStrTruthy t.isrc = false →
      ∀ ms wd, match_track t ir tr = .ok (ms, wd) →
        ∀ m ∈ ms, ¬ m.match_method = "ISRC") := by
  refine ⟨exactPass_matches t ir, ?_, ?_⟩
  · intro m hm
    rw [exactPass_matches] at hm
    obtain ⟨raw, _, hmr⟩ := List.mem_map.mp hm
    subst hmr
    exact ⟨by norm_num [mkExactMatch, Rat.mkRat_eq_div], rfl, rfl⟩
  · intro hi ms wd h m hm
    obtain ⟨ex, added, hperm, _, h2, _, _, hexf⟩ := match_track_decomp t ir tr ms wd h
    have hm' := hperm.mem_iff.mp hm
    rw [hexf hi] at hm'
    simp only [List.nil_append] at hm'
    obtain ⟨⟨raw, _, s, _, _, hmr⟩, _⟩ := h2 m hm'
    subst hmr
    intro hc
    have hc2 : "Title+Artist" = "ISRC" := hc
    exact absurd hc2 (by decide)

/-- Witness for `C1_amended` at a concrete input. -/
theorem C1_amended_witness :
    (exactPass c1Track [c1Payload]).1 = [mkExactMatch c1Track (parse_work c1Payload)] := by
  have := (C1_amended c1Track [c1Payload] []).1
  simpa using this

/-! ## Claim C2 -/

theorem assocGet?_eq_none {α : Type} (t : List (String × α)) (k : String)
    (h : ¬ k ∈ t.map Prod.fst) : assocGet? t k = Option.none := by
  induction t with
  | nil => rfl
  | cons p rest ih =>
    simp only [List.map_cons, List.mem_cons] at h
    push_neg at h
    have hb : (p.1 == k) = false := by
      simpa [beq_iff_eq] using fun e => h.1 e.symm
    simp only [assocGet?, List.find?, hb]
    simpa [assocGet?] using ih h.2

def c2Track1 : SpotifyTrack := mkTrack "T1" "x" (some "I1")
def c2Track2 : SpotifyTrack := mkTrack "T2" "y" (some "I2")
def c2PayloadA : List (String × PyVal) := [("id", PyVal.str "W"), ("title", PyVal.str "A")]
def c2PayloadB : List (String × PyVal) := [("id", PyVal.str "W"), ("title", PyVal.str "B")]

/-- The lookup capability for the C2 scenario: the first track's ISRC search
returns payload A, the second track's returns payload B; both parse to work id
`"W"` but with different titles. -/
def c2Lookup (tr : SpotifyTrack) :
    List (List (String × PyVal)) × List (List (String × PyVal)) :=
  if tr.track_id == "T1" then ([c2PayloadA], []) else ([c2PayloadB], [])

/-- C2, counterexample.  The claim says the first writer wins when per-track
work maps are merged.  Running the orchestrator over two tracks whose searches
return different `Work` payloads under the same identifier `"W"`, the final
global map holds the SECOND track's payload (title `"B"`), not the first's:
`all_works.update(works)` overwrites. -/
theorem C2_counterexample :
    match_all_tracks c2Lookup [c2Track1, c2Track2] =
      .ok ([mkExactMatch c2Track1 (parse_work c2PayloadA),
            mkExactMatch c2Track2 (parse_work c2PayloadB)],
        [("W", parse_work c2PayloadB)]) ∧
    (parse_work c2PayloadA).title = PyVal.str "A" ∧
    (parse_work c2PayloadB).title = PyVal.str "B" ∧
    ¬ parse_work c2PayloadA = parse_work c2PayloadB := by
  refine ⟨rfl, rfl, rfl, ?_⟩
  intro h
  have h2 : PyVal.str "A" = PyVal.str "B" := congrArg MusicalWork.title h
  injection h2 with h3
  exact absurd h3 (by decide)

/-- C2, amended.  The merge `all_works.update(works)` is last-writer-wins: for
a per-track map `w` with distinct keys, a key present in `w` ends up with `w`'s
value, and only keys absent from `w` keep the prior global value. -/
theorem C2_amended (g w : List (String × MusicalWork)) (k : String)
    (hw : (w.map Prod.fst).Nodup) :
    assocGet? (assocUpdate g w) k = (assocGet? w k).orElse (fun _ => assocGet? g k) := by
  induction w generalizing g with
  | nil => simp [assocUpdate, assocGet?, Option.orElse]
  | cons p t ih =>
    obtain ⟨k₀, v₀⟩ := p
    simp only [List.map_cons, List.nodup_cons] at hw
    have step : assocUpdate g ((k₀, v₀) :: t) = assocUpdate (assocSet g k₀ v₀) t := rfl
    rw [step, ih (assocSet g k₀ v₀) hw.2]
    by_cases hk : k = k₀
    · subst hk
      rw [assocGet?_eq_none t k hw.1]
      have h1 : assocGet? (assocSet g k v₀) k = some v₀ := by
        rw [assocGet?_assocSet]; simp
      have h2 : assocGet? ((k, v₀) :: t) k = some v₀ := by
        simp [assocGet?, List.find?]
      rw [h1, h2]
      rfl
    · have hb : (k₀ == k) = false := by
        simpa [beq_iff_eq] using fun e => hk e.symm
      have h1 : assocGet? (assocSet g k₀ v₀) k = assocGet? g k := by
        rw [assocGet?_assocSet, if_neg hk]
      have h2 : assocGet? ((k₀, v₀) :: t) k = assocGet? t k := by
        simp [assocGet?, List.find?, hb]
      rw [h1, h2]

/-- Witness for `C2_amended` at a concrete input. -/
theorem C2_amended_witness :
    assocGet? (assocUpdate [("W", parse_work c2PayloadA)] [("W", parse_work c2PayloadB)]) "W" =
      (assocGet? [("W", parse_work c2PayloadB)] "W").orElse
        (fun _ => assocGet? [("W", parse_work c2PayloadA)] "W") :=
  C2_amended [("W", parse_work c2PayloadA)] [("W", parse_work c2PayloadB)] "W" (by decide)

/-! ## Claim C3 -/

def c3Track : SpotifyTrack := mkTrack "T3" "s" (some "ISRC3")
def c3PayloadA : List (String × PyVal) := [("id", PyVal.str "W1"), ("title", PyVal.str "A")]
def c3PayloadB : List (String × PyVal) := [("id", PyVal.str "W1"), ("title", PyVal.str "B")]

/-- C3, counterexample.  The claim says a MatchSet contains at most one record
per work identifier, and no two exact-code records share one.  When the ISRC
search returns two payloads that parse to the same work id `"W1"`, the exact
pass performs no deduplication: the returned MatchSet holds two distinct
`"ISRC"`-method records with the same work id. -/
theorem C3_counterexample :
    match_track c3Track [c3PayloadA, c3PayloadB] [] =
      .ok ([mkExactMatch c3Track (parse_work c3PayloadA),
            mkExactMatch c3Track (parse_work c3PayloadB)],
        [("W1", parse_work c3PayloadB)]) ∧
    (mkExactMatch c3Track (parse_work c3PayloadA)).work_id =
      (mkExactMatch c3Track (parse_work c3PayloadB)).work_id ∧
    (mkExactMatch c3Track (parse_work c3PayloadA)).match_method = "ISRC" ∧
    (mkExactMatch c3Track (parse_work c3PayloadB)).match_method = "ISRC" ∧
    ¬ mkExactMatch c3Track (parse_work c3PayloadA) =
        mkExactMatch c3Track (parse_work c3PayloadB) := by
  refine ⟨rfl, rfl, rfl, rfl, ?_⟩
  intro h
  have h2 : PyVal.str "A" = PyVal.str "B" := congrArg WorkMatch.work_title h
  injection h2 with h3
  exact absurd h3 (by decide)

/-- C3, amended.  Duplicated work identifiers in a MatchSet can only come from
the exact pass: in every successful `match_track` result, any two records
sharing a work identifier are both `"ISRC"`-method records.  (The title-fuzzy
pass skips every candidate whose work id matches any already-accepted record,
so a fuzzy record never duplicates an exact record's id nor another fuzzy
record's id; the exact pass itself performs no deduplication.) -/
theorem C3_amended (t : SpotifyTrack) (ir tr : List (List (String × PyVal)))
    (ms : List WorkMatch) (wd : List (String × MusicalWork))
    (h : match_track t ir tr = .ok (ms, wd)) :
    ms.Pairwise (fun m1 m2 => m1.work_id = m2.work_id →
      m1.match_method = "ISRC" ∧ m2.match_method = "ISRC") := by
  obtain ⟨ex, added, hperm, hex, hadd, hpw, _, _⟩ := match_track_decomp t ir tr ms wd h
  have hsymm : ∀ {m1 m2 : WorkMatch}, (m1.work_id = m2.work_id →
        m1.match_method = "ISRC" ∧ m2.match_method = "ISRC") →
      (m2.work_id = m1.work_id →
        m2.match_method = "ISRC" ∧ m1.match_method = "ISRC") := by
    intro m1 m2 h12 he
    obtain ⟨a, b⟩ := h12 he.symm
    exact ⟨b, a⟩
  refine (List.Perm.pairwise_iff hsymm hperm).mpr ?_
  refine List.pairwise_append.mpr ⟨?_, ?_, ?_⟩
  · -- within the exact records: both are "ISRC"
    refine List.pairwise_iff_forall_sublist.mpr ?_
    intro m1 m2 hsub he
    have hm1 : m1 ∈ ex := hsub.subset (by simp)
    have hm2 : m2 ∈ ex := hsub.subset (by simp)
    obtain ⟨r1, _, e1⟩ := hex m1 hm1
    obtain ⟨r2, _, e2⟩ := hex m2 hm2
    subst e1; subst e2
    exact ⟨rfl, rfl⟩
  · -- within the fuzzy additions: ids are pairwise distinct
    exact hpw.imp (fun hne he => absurd he hne)
  · -- across: a fuzzy addition never shares an id with an exact record
    intro m1 hm1 m2 hm2 he
    exact absurd he ((hadd m2 hm2).2 m1 hm1)

/-- Witness for `C3_amended` at a concrete input. -/
theorem C3_amended_witness :
    ([mkExactMatch c3Track (parse_work c3PayloadA)] : List WorkMatch).Pairwise
      (fun m1 m2 => m1.work_id = m2.work_id →
        m1.match_method = "ISRC" ∧ m2.match_method = "ISRC") :=
  C3_amended c3Track [c3PayloadA] [] [mkExactMatch c3Track (parse_work c3PayloadA)]
    [("W1", parse_work c3PayloadA)] rfl

/-! ## Claim C9 -/

/-- C9.  Any pair of records in a successful `match_track` result that contains
a title-fuzzy record has distinct work identifiers: the fuzzy pass skips a
candidate whenever its work id equals that of ANY already-accepted match —
exact-code or fuzzy accepted earlier in the same pass — so the fuzzy strategy
never emits a duplicate work id. -/
theorem C9_fuzzy_never_duplicates (t : SpotifyTrack)
    (ir tr : List (List (String × PyVal)))
    (ms : List WorkMatch) (wd : List (String × MusicalWork))
    (h : match_track t ir tr = .ok (ms, wd)) :
    ms.Pairwise (fun m1 m2 =>
      (m1.match_method = "Title+Artist" ∨ m2.match_method = "Title+Artist") →
        ¬ m1.work_id = m2.work_id) := by
  obtain ⟨ex, added, hperm, hex, hadd, hpw, _, _⟩ := match_track_decomp t ir tr ms wd h
  have hsymm : ∀ {m1 m2 : WorkMatch},
      ((m1.match_method = "Title+Artist" ∨ m2.match_method = "Title+Artist") →
        ¬ m1.work_id = m2.work_id) →
      ((m2.match_method = "Title+Artist" ∨ m1.match_method = "Title+Artist") →
        ¬ m2.work_id = m1.work_id) := by
    intro m1 m2 h12 hor he
    exact h12 hor.symm he.symm
  refine (List.Perm.pairwise_iff hsymm hperm).mpr ?_
  refine List.pairwise_append.mpr ⟨?_, ?_, ?_⟩
  · refine List.pairwise_iff_forall_sublist.mpr ?_
    intro m1 m2 hsub hor
    have hm1 : m1 ∈ ex := hsub.subset (by simp)
    have hm2 : m2 ∈ ex := hsub.subset (by simp)
    obtain ⟨r1, _, e1⟩ := hex m1 hm1
    obtain ⟨r2, _, e2⟩ := hex m2 hm2
    subst e1; subst e2
    rcases hor with hc | hc
    · exact absurd (show "ISRC" = "Title+Artist" from hc) (by decide)
    · exact absurd (show "ISRC" = "Title+Artist" from hc) (by decide)
  · refine hpw.imp ?_
    intro a b hne _
    exact hne
  · intro m1 hm1 m2 hm2 _ he
    exact absurd he ((hadd m2 hm2).2 m1 hm1)

/-- Witness for `C9_fuzzy_never_duplicates` at a concrete input. -/
theorem C9_witness :
    ([mkExactMatch c1Track (parse_work c1Payload)] : List WorkMatch).Pairwise
      (fun m1 m2 =>
        (m1.match_method = "Title+Artist" ∨ m2.match_method = "Title+Artist") →
          ¬ m1.work_id = m2.work_id) :=
  C9_fuzzy_never_duplicates c1Track [c1Payload] [] [mkExactMatch c1Track (parse_work c1Payload)]
    [("W1", parse_work c1Payload)] rfl

/-! ## Bounds on the similarity ratio

The matching blocks found by `findLongestMatch` always lie inside the ranges
they were searched in, so their total size is at most `min (ahi-alo) (bhi-blo)`
and the ratio is at most 1.  These bounds feed the confidence-ceiling claims. -/

/-- The best block `(besti, bestj, size)` lies inside `[alo, ahi) × [blo, bhi)`. -/
def BestInvP (alo ahi blo bhi : Nat) (best : Nat × Nat × Nat) : Prop :=
  alo ≤ best.1 ∧ best.1 + best.2.2 ≤ ahi ∧ blo ≤ best.2.1 ∧ best.2.1 + best.2.2 ≤ bhi

/-- Chain-length invariant of a `j2len` map after processing rows up to
`bound`: a nonzero entry at `j` means a chain inside `[blo, bhi)` of length at
most `j + 1 - blo` and at most `bound - alo`. -/
def RowInvP (alo blo bhi bound : Nat) (r : Nat → Nat) : Prop :=
  ∀ j, r j ≠ 0 → blo ≤ j ∧ j < bhi ∧ r j + blo ≤ j + 1 ∧ r j + alo ≤ bound

theorem flmInner_inv (alo ahi blo bhi i : Nat) (hia : alo ≤ i) (hih : i < ahi)
    (j2len : Nat → Nat) (hj : RowInvP alo blo bhi i j2len) :
    ∀ (js : List Nat) (st : (Nat × Nat × Nat) × (Nat → Nat)),
      BestInvP alo ahi blo bhi st.1 → RowInvP alo blo bhi (i + 1) st.2 →
      BestInvP alo ahi blo bhi (flmInner blo bhi i j2len js st).1 ∧
        RowInvP alo blo bhi (i + 1) (flmInner blo bhi i j2len js st).2 := by
  intro js
  induction js with
  | nil => intro st h1 h2; exact ⟨h1, h2⟩
  | cons j js ih =>
    intro st h1 h2
    by_cases hlo : j < blo
    · simpa [flmInner, hlo] using ih st h1 h2
    · by_cases hhi : bhi ≤ j
      · simpa [flmInner, hlo, hhi] using ⟨h1, h2⟩
      · have hlo' : blo ≤ j := Nat.not_lt.mp hlo
        have hhi' : j < bhi := Nat.not_le.mp hhi
        set q := (if j = 0 then 0 else j2len (j - 1)) with hqdef
        have hq : q + blo ≤ j ∧ q + alo ≤ i := by
          rw [hqdef]
          by_cases hj0 : j = 0
          · rw [if_pos hj0]; omega
          · rw [if_neg hj0]
            by_cases hz : j2len (j - 1) = 0
            · rw [hz]; omega
            · have := hj (j - 1) hz
              omega
        have heq : flmInner blo bhi i j2len (j :: js) st =
            flmInner blo bhi i j2len js
              ((if st.1.2.2 < q + 1 then (i + 1 - (q + 1), j + 1 - (q + 1), q + 1) else st.1),
                fun j' => if j' = j then q + 1 else st.2 j') := by
          simp only [flmInner]
          rw [if_neg hlo, if_neg hhi]
        rw [heq]
        apply ih
        · by_cases hcmp : st.1.2.2 < q + 1
          · rw [if_pos hcmp]
            simp only [BestInvP]
            omega
          · rw [if_neg hcmp]
            exact h1
        · intro j' hz'
          dsimp only at hz' ⊢
          by_cases hjj : j' = j
          · subst hjj
            rw [if_pos rfl] at hz' ⊢
            omega
          · rw [if_neg hjj] at hz' ⊢
            exact h2 j' hz'

theorem flmRows_inv (a : List Char) (b2j : List (Char × List Nat))
    (alo ahi blo bhi : Nat) :
    ∀ (n i0 : Nat) (st : (Nat × Nat × Nat) × (Nat → Nat)),
      alo ≤ i0 → i0 + n ≤ ahi →
      BestInvP alo ahi blo bhi st.1 → RowInvP alo blo bhi i0 st.2 →
      BestInvP alo ahi blo bhi (flmRows a b2j blo bhi (List.range' i0 n) st) := by
  intro n
  induction n with
  | zero => intro i0 st _ _ h1 _; simpa [flmRows] using h1
  | succ n ih =>
    intro i0 st h0 hn h1 h2
    have hstep := flmInner_inv alo ahi blo bhi i0 h0 (by omega) st.2 h2
      (b2jGet b2j (a.getD i0 '\x00')) (st.1, fun _ => 0) h1 (by intro j hz; simp at hz)
    have := ih (i0 + 1)
      (flmInner blo bhi i0 st.2 (b2jGet b2j (a.getD i0 '\x00')) (st.1, fun _ => 0))
      (by omega) (by omega) hstep.1 hstep.2
    simpa [flmRows, List.range'] using this

theorem extendBack_inv (a b : List Char) (alo blo ahi bhi : Nat) :
    ∀ (fuel : Nat) (st : Nat × Nat × Nat),
      BestInvP alo ahi blo bhi st →
      BestInvP alo ahi blo bhi (extendBack a b alo blo fuel st) := by
  intro fuel
  induction fuel with
  | zero => intro st h; simpa [extendBack] using h
  | succ fuel ih =>
    intro st h
    obtain ⟨bi, bj, sz⟩ := st
    simp only [extendBack]
    split
    next hc =>
      apply ih
      obtain ⟨hc1, hc2, _⟩ := hc
      simp only [BestInvP] at h ⊢
      omega
    next => exact h

theorem extendFwd_inv (a b : List Char) (alo blo ahi bhi : Nat) :
    ∀ (fuel : Nat) (st : Nat × Nat × Nat),
      BestInvP alo ahi blo bhi st →
      BestInvP alo ahi blo bhi (extendFwd a b ahi bhi fuel st) := by
  intro fuel
  induction fuel with
  | zero => intro st h; simpa [extendFwd] using h
  | succ fuel ih =>
    intro st h
    obtain ⟨bi, bj, sz⟩ := st
    simp only [extendFwd]
    split
    next hc =>
      apply ih
      obtain ⟨hc1, hc2, _⟩ := hc
      simp only [BestInvP] at h ⊢
      omega
    next => exact h

theorem findLongestMatch_bounds (a b : List Char) (b2j : List (Char × List Nat))
    (alo ahi blo bhi : Nat) (h1 : alo ≤ ahi) (h2 : blo ≤ bhi) :
    BestInvP alo ahi blo bhi (findLongestMatch a b b2j alo ahi blo bhi) := by
  unfold findLongestMatch
  have hrows := flmRows_inv a b2j alo ahi blo bhi (ahi - alo) alo
    ((alo, blo, 0), fun _ => 0) (Nat.le_refl alo) (by omega)
    (by simp [BestInvP]; omega) (by intro j hz; simp at hz)
  have hback := extendBack_inv a b alo blo ahi bhi
    (flmRows a b2j blo bhi (List.range' alo (ahi - alo)) ((alo, blo, 0), fun _ => 0)).1
    (flmRows a b2j blo bhi (List.range' alo (ahi - alo)) ((alo, blo, 0), fun _ => 0)) hrows
  exact extendFwd_inv a b alo blo ahi bhi ahi _ hback

theorem msum_le (a b : List Char) (b2j : List (Char × List Nat)) :
    ∀ (fuel alo ahi blo bhi : Nat), alo ≤ ahi → blo ≤ bhi →
      msum a b b2j fuel (alo, ahi, blo, bhi) + alo ≤ ahi ∧
      msum a b b2j fuel (alo, ahi, blo, bhi) + blo ≤ bhi := by
  intro fuel
  induction fuel with
  | zero => intro alo ahi blo bhi h1 h2; simp [msum]; omega
  | succ fuel ih =>
    intro alo ahi blo bhi h1 h2
    have hb := findLongestMatch_bounds a b b2j alo ahi blo bhi h1 h2
    rcases hflm : findLongestMatch a b b2j alo ahi blo bhi with ⟨i, j, k⟩
    rw [hflm] at hb
    have hb1 : alo ≤ i := hb.1
    have hb2 : i + k ≤ ahi := hb.2.1
    have hb3 : blo ≤ j := hb.2.2.1
    have hb4 : j + k ≤ bhi := hb.2.2.2
    simp only [msum, hflm]
    by_cases hk : k = 0
    · simp [hk]; omega
    · rw [if_neg hk]
      by_cases hL : alo < i ∧ blo < j
      · have ihL := ih alo i blo j (by omega) (by omega)
        by_cases hR : i + k < ahi ∧ j + k < bhi
        · have ihR := ih (i + k) ahi (j + k) bhi (by omega) (by omega)
          rw [if_pos hL, if_pos hR]
          omega
        · rw [if_pos hL, if_neg hR]
          omega
      · by_cases hR : i + k < ahi ∧ j + k < bhi
        · have ihR := ih (i + k) ahi (j + k) bhi (by omega) (by omega)
          rw [if_neg hL, if_pos hR]
          omega
        · rw [if_neg hL, if_neg hR]
          omega

/-- The ratio is between 0 and 1 for all inputs. -/
theorem ratioL_bounds (a b : List Char) : 0 ≤ ratioL a b ∧ ratioL a b ≤ 1 := by
  unfold ratioL
  by_cases h0 : a.length + b.length = 0
  · simp [h0]
  · rw [if_neg h0]
    have hM := msum_le a b (b2jBuild b) (a.length + b.length + 1)
      0 a.length 0 b.length (Nat.zero_le _) (Nat.zero_le _)
    set M := msum a b (b2jBuild b) (a.length + b.length + 1) (0, a.length, 0, b.length)
      with hMdef
    have h2M : 2 * M ≤ a.length + b.length := by omega
    rw [Rat.mkRat_eq_div]
    constructor
    · positivity
    · rw [div_le_one (by positivity)]
      push_cast
      exact_mod_cast h2M

/-- `calculate_title_similarity` never exceeds 1. -/
theorem calculate_title_similarity_le_one (t1 t2 : String) :
    calculate_title_similarity t1 t2 ≤ 1 :=
  (ratioL_bounds _ _).2

theorem calcSimPy_ok {t1 : String} {v : PyVal} {s : ℚ}
    (h : calcSimPy t1 v = .ok s) :
    ∃ s2, v = .str s2 ∧ s = calculate_title_similarity t1 s2 := by
  cases v with
  | str s2 =>
    simp only [calcSimPy, Except.ok.injEq] at h
    exact ⟨s2, rfl, h.symm⟩
  | none => exact absurd h (by simp [calcSimPy])
  | int n => exact absurd h (by simp [calcSimPy])
  | bool b => exact absurd h (by simp [calcSimPy])
  | list xs => exact absurd h (by simp [calcSimPy])
  | dict xs => exact absurd h (by simp [calcSimPy])

theorem mkRat_85_100_eq : (mkRat 85 100 : ℚ) = 0.85 := by
  norm_num [Rat.mkRat_eq_div]

/-- Every `"Title+Artist"` record of a successful `match_track` result stems
from a title candidate whose similarity passed the threshold, and carries
confidence `similarity * 0.85` with `similarity ≤ 1`. -/
theorem fuzzy_record_facts (t : SpotifyTrack) (ir tr : List (List (String × PyVal)))
    (ms : List WorkMatch) (wd : List (String × MusicalWork))
    (h : match_track t ir tr = .ok (ms, wd))
    (m : WorkMatch) (hm : m ∈ ms) (hf : m.match_method = "Title+Artist") :
    ∃ raw ∈ tr, ∃ s : ℚ,
      calcSimPy t.title (parse_work raw).title = .ok s ∧
      TITLE_MATCH_THRESHOLD ≤ s ∧ s ≤ 1 ∧
      m.confidence_score = s * mkRat 85 100 := by
  obtain ⟨ex, added, hperm, hex, hadd, _, _, _⟩ := match_track_decomp t ir tr ms wd h
  have hm' := hperm.mem_iff.mp hm
  rcases List.mem_append.mp hm' with hme | hma
  · obtain ⟨raw, _, e⟩ := hex m hme
    subst e
    exact absurd (show "ISRC" = "Title+Artist" from hf) (by decide)
  · obtain ⟨⟨raw, hraw, s, hsim, hth, e⟩, _⟩ := hadd m hma
    subst e
    refine ⟨raw, hraw, s, hsim, hth, ?_, rfl⟩
    obtain ⟨s2, _, hs⟩ := calcSimPy_ok hsim
    rw [hs]
    exact calculate_title_similarity_le_one _ _

/-! ## Claim C4 -/

def c4Track : SpotifyTrack := mkTrack "T4" "hello" Option.none

def c4Payload : List (String × PyVal) :=
  [("id", PyVal.str "W1"), ("title", PyVal.str "hello")]

/-- C4, counterexample.  The claim caps title-fuzzy confidence at 0.8075; but
with similarity 1 (identical titles) the accepted record's confidence is
`1 * 0.85 = 0.85 > 0.8075`. -/
theorem C4_counterexample :
    match_track c4Track [] [c4Payload] =
      .ok ([mkFuzzyMatch c4Track (parse_work c4Payload) 1],
        [("W1", parse_work c4Payload)]) ∧
    (mkFuzzyMatch c4Track (parse_work c4Payload) 1).match_method = "Title+Artist" ∧
    (mkFuzzyMatch c4Track (parse_work c4Payload) 1).confidence_score = 0.85 ∧
    (0.8075 : ℚ) < 0.85 := by
  refine ⟨rfl, rfl, ?_, by norm_num⟩
  show (1 : ℚ) * mkRat 85 100 = 0.85
  rw [one_mul, mkRat_85_100_eq]

/-- C4, amended.  The true ceiling of the title-fuzzy method is 0.85
(confidence = similarity × 0.85 with similarity ≤ 1), still strictly below
the exact-code confidence 0.95. -/
theorem C4_amended (t : SpotifyTrack) (ir tr : List (List (String × PyVal)))
    (ms : List WorkMatch) (wd : List (String × MusicalWork))
    (h : match_track t ir tr = .ok (ms, wd)) :
    ∀ m ∈ ms, m.match_method = "Title+Artist" →
      m.confidence_score ≤ 0.85 ∧ m.confidence_score < 0.95 := by
  intro m hm hf
  obtain ⟨raw, hraw, s, hsim, hth, hs1, hconf⟩ :=
    fuzzy_record_facts t ir tr ms wd h m hm hf
  have hle : m.confidence_score ≤ 0.85 := by
    rw [hconf, ← mkRat_85_100_eq]
    calc s * mkRat 85 100 ≤ 1 * mkRat 85 100 := by
          apply mul_le_mul_of_nonneg_right hs1
          rw [mkRat_85_100_eq]; norm_num
      _ = mkRat 85 100 := one_mul _
  exact ⟨hle, lt_of_le_of_lt hle (by norm_num)⟩

/-- Witness for `C4_amended` at a concrete input. -/
theorem C4_amended_witness :
    (mkFuzzyMatch c4Track (parse_work c4Payload) 1).confidence_score ≤ 0.85 ∧
    (mkFuzzyMatch c4Track (parse_work c4Payload) 1).confidence_score < 0.95 :=
  C4_amended c4Track [] [c4Payload] [mkFuzzyMatch c4Track (parse_work c4Payload) 1]
    [("W1", parse_work c4Payload)] rfl (mkFuzzyMatch c4Track (parse_work c4Payload) 1)
    (List.mem_singleton.mpr rfl) rfl

/-! ## Claim C7 -/

/-- C7.  A title-fuzzy record is produced only when the computed similarity is
at least 0.85; its confidence is exactly `similarity * 0.85` and strictly less
than 0.95. -/
theorem C7_fuzzy_threshold (t : SpotifyTrack) (ir tr : List (List (String × PyVal)))
    (ms : List WorkMatch) (wd : List (String × MusicalWork))
    (h : match_track t ir tr = .ok (ms, wd)) :
    ∀ m ∈ ms, m.match_method = "Title+Artist" →
      ∃ raw ∈ tr, ∃ s : ℚ,
        calcSimPy t.title (parse_work raw).title = .ok s ∧
        (0.85 : ℚ) ≤ s ∧
        m.confidence_score = s * 0.85 ∧
        m.confidence_score < 0.95 := by
  intro m hm hf
  obtain ⟨raw, hraw, s, hsim, hth, hs1, hconf⟩ :=
    fuzzy_record_facts t ir tr ms wd h m hm hf
  have hth' : (0.85 : ℚ) ≤ s := by
    rw [← mkRat_85_100_eq]
    exact hth
  refine ⟨raw, hraw, s, hsim, hth', ?_, ?_⟩
  · rw [hconf, mkRat_85_100_eq]
  · have hle : m.confidence_score ≤ 0.85 := by
      rw [hconf, ← mkRat_85_100_eq]
      calc s * mkRat 85 100 ≤ 1 * mkRat 85 100 := by
            apply mul_le_mul_of_nonneg_right hs1
            rw [mkRat_85_100_eq]; norm_num
        _ = mkRat 85 100 := one_mul _
    exact lt_of_le_of_lt hle (by norm_num)

/-- Witness for `C7_fuzzy_threshold` at a concrete input. -/
theorem C7_witness :
    ∃ raw ∈ [c4Payload], ∃ s : ℚ,
      calcSimPy c4Track.title (parse_work raw).title = .ok s ∧
      (0.85 : ℚ) ≤ s ∧
      (mkFuzzyMatch c4Track (parse_work c4Payload) 1).confidence_score = s * 0.85 ∧
      (mkFuzzyMatch c4Track (parse_work c4Payload) 1).confidence_score < 0.95 :=
  C7_fuzzy_threshold c4Track [] [c4Payload]
    [mkFuzzyMatch c4Track (parse_work c4Payload) 1] [("W1", parse_work c4Payload)] rfl
    (mkFuzzyMatch c4Track (parse_work c4Payload) 1) (List.mem_singleton.mpr rfl) rfl

/-! ## Claim C6 -/

/-- C6, counterexample.  The similarity scorer is not symmetric: `SequenceMatcher`
builds its index from the second sequence only and breaks ties greedily, so
`ratio("ab", "bacb") = 2/3` while `ratio("bacb", "ab") = 1/3` — no autojunk or
long input needed.  (Autojunk adds further asymmetry for inputs of length ≥ 200:
`ratio("zx", "x"*200) = 0` while `ratio("x"*200, "zx") = 1/101`.) -/
theorem C6_counterexample :
    ¬ calculate_title_similarity "ab" "bacb" = calculate_title_similarity "bacb" "ab" := by
  intro h
  have h1 : calculate_title_similarity "ab" "bacb" = mkRat 4 6 := rfl
  have h2 : calculate_title_similarity "bacb" "ab" = mkRat 2 6 := rfl
  rw [h1, h2] at h
  rw [Rat.mkRat_eq_div, Rat.mkRat_eq_div] at h
  norm_num at h

/-- The autojunk variant of the asymmetry, at normalized length 200: the
popular-element purge applies only to the second sequence. -/
theorem C6_autojunk_asymmetry :
    ¬ ratioL "zx".data (List.replicate 200 'x') =
        ratioL (List.replicate 200 'x') "zx".data := by
  intro h
  have h1 : ratioL "zx".data (List.replicate 200 'x') = mkRat 0 202 := rfl
  have h2 : ratioL (List.replicate 200 'x') "zx".data = mkRat 2 202 := rfl
  rw [h1, h2] at h
  rw [Rat.mkRat_eq_div, Rat.mkRat_eq_div] at h
  norm_num at h

/-- C6, amended.  The scorer depends only on the normalized titles, so it is
symmetric whenever the two normalized forms coincide; in general symmetry
fails (see the counterexample), even for short inputs. -/
theorem C6_amended (a b : String) (h : normalize_title a = normalize_title b) :
    calculate_title_similarity a b = calculate_title_similarity b a := by
  have h' : normalizeTitleL a.data = normalizeTitleL b.data := by
    have := congrArg String.data h
    simpa [normalize_title] using this
  unfold calculate_title_similarity
  rw [h']

/-- Witness for `C6_amended` at a concrete input. -/
theorem C6_amended_witness :
    calculate_title_similarity "A" "a" = calculate_title_similarity "a" "A" :=
  C6_amended "A" "a" rfl

/-! ## Claim C8 -/

def c8Track : SpotifyTrack := mkTrack "T8" "hello" Option.none

/-- A candidate payload whose `title` field holds JSON `null`. -/
def c8Payload : List (String × PyVal) := [("id", PyVal.str "W1"), ("title", PyVal.none)]

/-- C8, counterexample.  The claim says candidate evaluation never raises, even
for a null/non-string title.  But `_normalize_title` calls `title.lower()`, so
evaluating a candidate parsed from a payload with `"title": null` raises
`AttributeError` and `match_track` propagates it. -/
theorem C8_counterexample :
    match_track c8Track [] [c8Payload] =
      .error "AttributeError: object has no attribute lower" ∧
    dictGetD c8Payload "title" (PyVal.str "") = PyVal.none :=
  ⟨rfl, rfl⟩

/-- A payload whose `title` field, possibly defaulted, is an honest string. -/
def TitleWellTyped (raw : List (String × PyVal)) : Prop :=
  ∃ s, dictGetD raw "title" (.str "") = .str s

theorem fuzzyPass_total (t : SpotifyTrack) :
    ∀ (rs : List (List (String × PyVal)))
      (acc : List WorkMatch × List (String × MusicalWork)),
      (∀ raw ∈ rs, TitleWellTyped raw) →
      ∃ out, fuzzyPass t rs acc = .ok out := by
  intro rs
  induction rs with
  | nil => intro acc _; exact ⟨acc, rfl⟩
  | cons raw rest ih =>
    intro acc hw
    obtain ⟨s, hs⟩ := hw raw (by simp)
    have htitle : (parse_work raw).title = .str s := hs
    simp only [fuzzyPass, htitle, calcSimPy]
    by_cases hth : TITLE_MATCH_THRESHOLD ≤ calculate_title_similarity t.title s
    · rw [if_pos hth]
      by_cases hdup : (acc.1.any fun m => m.work_id == (parse_work raw).work_id) = true
      · rw [if_pos hdup]
        exact ih acc (fun r hr => hw r (by simp [hr]))
      · rw [if_neg hdup]
        exact ih _ (fun r hr => hw r (by simp [hr]))
    · rw [if_neg hth]
      exact ih acc (fun r hr => hw r (by simp [hr]))

/-- C8, amended.  `parse_work` is total on any dict payload, and candidate
evaluation completes without raising provided every title candidate's `title`
field (after the empty-string default for an absent field) is a string;
a null or other non-string title raises. -/
theorem C8_amended (t : SpotifyTrack) (ir tr : List (List (String × PyVal)))
    (h : ∀ raw ∈ tr, TitleWellTyped raw) :
    ∃ out, match_track t ir tr = .ok out := by
  unfold match_track
  dsimp only
  set st := if optStrTruthy t.isrc then exactPass t ir else ([], []) with hst
  by_cases hg : (st.1.isEmpty || decide (st.1.length < 2)) = true
  · rw [if_pos hg]
    obtain ⟨out, hout⟩ := fuzzyPass_total t tr st h
    rw [hout]
    exact ⟨_, rfl⟩
  · rw [if_neg hg]
    exact ⟨_, rfl⟩

/-- Witness for `C8_amended` at a concrete input. -/
theorem C8_amended_witness :
    ∃ out, match_track c8Track [] [[("title", PyVal.str "x")]] = .ok out :=
  C8_amended c8Track [] [[("title", PyVal.str "x")]]
    (fun raw hr => by
      have he : raw = [("title", PyVal.str "x")] := by simpa using hr
      subst he
      exact ⟨"x", rfl⟩)

/-! ## Claim C10 -/

/-- A payload lacking every recognized identifier field (`property_id`, `id`,
`work_id` are all absent, so the defaulted lookups fall through). -/
def NoIdKeys (raw : List (String × PyVal)) : Prop :=
  dictGetD raw "property_id" .none = .none ∧
  dictGetD raw "id" .none = .none ∧
  dictGetD raw "work_id" (.str "") = .str ""

theorem parse_work_id_empty (raw : List (String × PyVal)) (h : NoIdKeys raw) :
    (parse_work raw).work_id = "" := by
  obtain ⟨h1, h2, h3⟩ := h
  show pyStr (pyOr (dictGetD raw "property_id" .none)
    (pyOr (dictGetD raw "id" .none) (dictGetD raw "work_id" (.str "")))) = ""
  rw [h1, h2, h3]
  rfl

theorem exactPass_snd (t : SpotifyTrack) :
    ∀ (res : List (List (String × PyVal))) (acc : List WorkMatch × List (String × MusicalWork)),
      (res.foldl
        (fun acc raw =>
          let w := parse_work raw
          (acc.1 ++ [mkExactMatch t w], assocSet acc.2 w.work_id w)) acc).2 =
        res.foldl (fun d raw => assocSet d (parse_work raw).work_id (parse_work raw)) acc.2 := by
  intro res
  induction res with
  | nil => intro acc; rfl
  | cons raw rest ih =>
    intro acc
    simp only [List.foldl_cons]
    exact ih _

theorem foldl_assocSet_empty_key :
    ∀ (res : List (List (String × PyVal))) (w : MusicalWork),
      (∀ raw ∈ res, (parse_work raw).work_id = "") →
      res.foldl (fun d raw => assocSet d (parse_work raw).work_id (parse_work raw)) [("", w)] =
        [("", res.foldl (fun _ raw => parse_work raw) w)] := by
  intro res
  induction res with
  | nil => intro w _; rfl
  | cons raw rest ih =>
    intro w hids
    simp only [List.foldl_cons]
    have hid : (parse_work raw).work_id = "" := hids raw (by simp)
    rw [hid]
    have hset : assocSet [("", w)] "" (parse_work raw) = [("", parse_work raw)] := rfl
    rw [hset]
    exact ih (parse_work raw) (fun r hr => hids r (by simp [hr]))

theorem foldl_keep_last {α β : Type} (g : α → β) :
    ∀ (l : List α) (init : β),
      l.foldl (fun _ x => g x) init =
        (match l.getLast? with | some a => g a | Option.none => init) := by
  intro l
  induction l with
  | nil => intro init; rfl
  | cons x t ih =>
    intro init
    rw [List.foldl_cons, ih (g x)]
    cases hgl : t.getLast? with
    | some a =>
      have : (x :: t).getLast? = some a := by
        cases t with
        | nil => simp at hgl
        | cons y u => rw [List.getLast?_cons_cons, hgl]
      rw [this]
    | none =>
      have ht : t = [] := by
        cases t with
        | nil => rfl
        | cons y u => simp [List.getLast?_cons_cons] at hgl

      subst ht
      rfl

/-- C10.  When the ISRC search returns only payloads lacking every identifier
field (and at least two of them, so the fuzzy pass is skipped), each candidate
parses to a Work with `work_id = ""`, each still contributes its own
exact-pass MatchRecord, and the returned work map collapses to the single
entry keyed `""` holding the LAST parsed candidate (later insertions
overwrite). -/
theorem C10_identifierless_works (t : SpotifyTrack)
    (ir tr : List (List (String × PyVal)))
    (ms : List WorkMatch) (wd : List (String × MusicalWork))
    (hisrc : optStrTruthy t.isrc = true)
    (hids : ∀ raw ∈ ir, NoIdKeys raw)
    (hlen : 2 ≤ ir.length)
    (h : match_track t ir tr = .ok (ms, wd)) :
    ms.length = ir.length ∧
    (∀ m ∈ ms, m.work_id = "" ∧ m.match_method = "ISRC" ∧ m.confidence_score = 0.95) ∧
    (∃ lastRaw, ir.getLast? = some lastRaw ∧ wd = [("", parse_work lastRaw)]) := by
  unfold match_track at h
  dsimp only at h
  rw [if_pos hisrc] at h
  have hlen1 : (exactPass t ir).1.length = ir.length := by
    rw [exactPass_matches, List.length_map]
  have hg : ((exactPass t ir).1.isEmpty || decide ((exactPass t ir).1.length < 2)) = false := by
    have h1 : (exactPass t ir).1.isEmpty = false := by
      cases he : (exactPass t ir).1 with
      | nil => rw [he] at hlen1; simp at hlen1; omega
      | cons x xs => rfl
    have h2 : decide ((exactPass t ir).1.length < 2) = false := by
      rw [decide_eq_false_iff_not]
      omega
    rw [h1, h2]
    rfl
  rw [hg] at h
  simp only [Bool.false_eq_true, if_false, Except.ok.injEq, Prod.mk.injEq] at h
  obtain ⟨hms, hwd⟩ := h
  have hperm : ms.Perm (exactPass t ir).1 := by
    rw [← hms]; exact sortMatches_perm _
  refine ⟨by rw [hperm.length_eq, hlen1], ?_, ?_⟩
  · intro m hm
    have hm' := hperm.mem_iff.mp hm
    rw [exactPass_matches] at hm'
    obtain ⟨raw, hraw, e⟩ := List.mem_map.mp hm'
    subst e
    refine ⟨parse_work_id_empty raw (hids raw hraw), rfl, ?_⟩
    show (mkRat 95 100 : ℚ) = 0.95
    norm_num [Rat.mkRat_eq_div]
  · -- the work map: all inserts share the key "", the last write survives
    obtain ⟨raw0, rest, hir⟩ : ∃ r0 rest, ir = r0 :: rest := by
      cases ir with
      | nil => simp at hlen
      | cons r0 rest => exact ⟨r0, rest, rfl⟩
    have hids' : ∀ raw ∈ ir, (parse_work raw).work_id = "" :=
      fun raw hr => parse_work_id_empty raw (hids raw hr)
    have hsnd : (exactPass t ir).2 =
        ir.foldl (fun d raw => assocSet d (parse_work raw).work_id (parse_work raw)) [] := by
      simpa using exactPass_snd t ir ([], [])
    subst hir
    rw [List.foldl_cons] at hsnd
    have hid0 : (parse_work raw0).work_id = "" := hids' raw0 (by simp)
    rw [hid0] at hsnd
    have hset0 : assocSet [] "" (parse_work raw0) = [("", parse_work raw0)] := rfl
    rw [hset0] at hsnd
    rw [foldl_assocSet_empty_key rest (parse_work raw0)
      (fun r hr => hids' r (by simp [hr]))] at hsnd
    rw [foldl_keep_last] at hsnd
    cases hgl : rest.getLast? with
    | some a =>
      refine ⟨a, ?_, ?_⟩
      · cases rest with
        | nil => simp at hgl
        | cons y u => rw [List.getLast?_cons_cons, hgl]
      · rw [← hwd, hsnd, hgl]
    | none =>
      have hrest : rest = [] := by
        cases rest with
        | nil => rfl
        | cons y u => simp [List.getLast?_cons_cons] at hgl
      subst hrest
      refine ⟨raw0, rfl, ?_⟩
      rw [← hwd, hsnd, hgl]

def c10Track : SpotifyTrack := mkTrack "TX" "t" (some "IX")
def c10PayloadA : List (String × PyVal) := [("title", PyVal.str "A")]
def c10PayloadB : List (String × PyVal) := [("title", PyVal.str "B")]

/-- Witness for `C10_identifierless_works` at a concrete input. -/
theorem C10_witness :
    ([mkExactMatch c10Track (parse_work c10PayloadA),
      mkExactMatch c10Track (parse_work c10PayloadB)] : List WorkMatch).length =
        ([c10PayloadA, c10PayloadB] : List (List (String × PyVal))).length ∧
    (∀ m ∈ ([mkExactMatch c10Track (parse_work c10PayloadA),
        mkExactMatch c10Track (parse_work c10PayloadB)] : List WorkMatch),
      m.work_id = "" ∧ m.match_method = "ISRC" ∧ m.confidence_score = 0.95) ∧
    (∃ lastRaw, ([c10PayloadA, c10PayloadB] : List (List (String × PyVal))).getLast? =
        some lastRaw ∧
      [("", parse_work c10PayloadB)] = [("", parse_work lastRaw)]) :=
  C10_identifierless_works c10Track [c10PayloadA, c10PayloadB] []
    [mkExactMatch c10Track (parse_work c10PayloadA),
      mkExactMatch c10Track (parse_work c10PayloadB)]
    [("", parse_work c10PayloadB)] rfl
    (fun raw hr => by
      rcases List.mem_cons.mp hr with he | he
      · subst he; exact ⟨rfl, rfl, rfl⟩
      · have he' : raw = c10PayloadB := by simpa using he
        subst he'; exact ⟨rfl, rfl, rfl⟩)
    (by decide) rfl

/-! ## Claim C5: idempotence of the title normalizer

The normalizer is NOT idempotent on arbitrary strings: `.` in the regexes does
not match `'\n'`, so a parenthesized span containing a newline survives the
first pass, but the whitespace collapse replaces the newline by a space and the
second pass then removes the span (`"(a\nb)" ↦ "(a b)" ↦ ""`).  On
newline-free strings idempotence does hold; the development below proves it.

Road map: after the first pass the string (call it `C`)
 * contains no `'('` before a `')'` and no `'['` before a `']'`
   (established by the pair passes, preserved because every later pass only
   deletes characters and the collapse keeps non-space characters in order);
 * contains no occurrence of `-`‑whitespace‑keyword for the three hyphen
   keywords, and no `"feat."`/`"ft."` substring (established by each marker
   pass; on newline-free input every later marker pass is a prefix map, and
   the collapse cannot create such an occurrence);
 * is lowercase and whitespace-collapsed.
Each stage of the second pass is then the identity on `C`. -/

/-- No newline occurs in the string. -/
def NoNL (s : List Char) : Prop := ∀ c ∈ s, ¬ c = '\n'

theorem noNL_sublist {s t : List Char} (h : List.Sublist t s) (hs : NoNL s) : NoNL t :=
  fun c hc => hs c (h.subset hc)

theorem noNL_suffix {s t u : List Char} (h : u ++ t = s) (hs : NoNL s) : NoNL t := by
  subst h
  exact fun c hc => hs c (List.mem_append_right u hc)

/-- `dropWhile` produces a suffix. -/
theorem dropWhile_suffix (p : Char → Bool) (s : List Char) :
    ∃ u, u ++ s.dropWhile p = s ∧ ∀ c ∈ u, p c = true := by
  induction s with
  | nil => exact ⟨[], rfl, by simp⟩
  | cons x t ih =>
    by_cases hx : p x
    · obtain ⟨u, hu, hall⟩ := ih
      refine ⟨x :: u, ?_, ?_⟩
      · simp [List.dropWhile, hx, hu]
      · intro c hc
        rcases List.mem_cons.mp hc with he | he
        · subst he; exact hx
        · exact hall c he
    · refine ⟨[], ?_, by simp⟩
      simp [List.dropWhile, hx]

/-- The head of a `dropWhile` result fails the predicate. -/
theorem dropWhile_head_false (p : Char → Bool) :
    ∀ (s : List Char) (c : Char) (r : List Char),
      s.dropWhile p = c :: r → p c = false := by
  intro s
  induction s with
  | nil => intro c r h; simp at h
  | cons x t ih =>
    intro c r h
    by_cases hx : p x
    · rw [List.dropWhile_cons_of_pos hx] at h
      exact ih c r h
    · rw [List.dropWhile_cons_of_neg hx] at h
      cases h
      exact Bool.not_eq_true _ ▸ (by simpa using hx)

/-- `dropWhile` of an all-`p` block glued onto a non-`p` head skips the block. -/
theorem dropWhile_all_then (p : Char → Bool) :
    ∀ (w : List Char) (y : Char) (rest : List Char),
      (∀ x ∈ w, p x = true) → p y = false →
      (w ++ y :: rest).dropWhile p = y :: rest := by
  intro w
  induction w with
  | nil => intro y rest _ hy; simp [List.dropWhile, hy]
  | cons x t ih =>
    intro y rest hall hy
    have hx : p x = true := hall x (by simp)
    simp only [List.cons_append, List.dropWhile_cons_of_pos hx]
    exact ih y rest (fun z hz => hall z (by simp [hz])) hy

/-- Decomposition of a successful `findClose`. -/
theorem findClose_decomp (c : Char) :
    ∀ (l r : List Char), findClose c l = some r → ∃ v, l = v ++ c :: r := by
  intro l
  induction l with
  | nil => intro r h; simp [findClose] at h
  | cons x t ih =>
    intro r h
    by_cases hx : x == c
    · rw [findClose, if_pos hx] at h
      cases h
      exact ⟨[], by simp [(beq_iff_eq.mp hx)]⟩
    · rw [findClose, if_neg hx] at h
      by_cases hn : x == '\n'
      · rw [if_pos hn] at h; cases h
      · rw [if_neg hn] at h
        obtain ⟨v, hv⟩ := ih r h
        exact ⟨x :: v, by simp [hv]⟩

/-- A failed `findClose` on a newline-free list means the character is absent. -/
theorem findClose_none (c : Char) :
    ∀ (l : List Char), findClose c l = Option.none → NoNL l → ¬ c ∈ l := by
  intro l
  induction l with
  | nil => intro _ _ h; simp at h
  | cons x t ih =>
    intro h hnl hc
    by_cases hx : x == c
    · rw [findClose, if_pos hx] at h; cases h
    · rw [findClose, if_neg hx] at h
      by_cases hn : x == '\n'
      · exact hnl x (by simp) (beq_iff_eq.mp hn)
      · rw [if_neg hn] at h
        rcases List.mem_cons.mp hc with he | he
        · exact absurd (beq_iff_eq.mpr he.symm) (by simpa using hx)
        · exact ih h (fun d hd => hnl d (by simp [hd])) he

/-- A successful match's remainder is a suffix (all three matchers). -/
theorem matchPairAt_suffix (o c : Char) (s r : List Char)
    (h : matchPairAt o c s = some r) : ∃ u, u ++ r = s := by
  unfold matchPairAt at h
  obtain ⟨u1, hu1, _⟩ := dropWhile_suffix isPySpace s
  cases hd : s.dropWhile isPySpace with
  | nil => rw [hd] at h; cases h
  | cons x t =>
    rw [hd] at h hu1
    dsimp only at h
    by_cases hx : x == o
    · rw [if_pos hx] at h
      cases hf : findClose c t with
      | none => rw [hf] at h; cases h
      | some r2 =>
        rw [hf] at h
        simp only [Option.map_some', Option.some.injEq] at h
        obtain ⟨v, hv⟩ := findClose_decomp c t r2 hf
        obtain ⟨u2, hu2, _⟩ := dropWhile_suffix isPySpace r2
        rw [h] at hu2
        refine ⟨u1 ++ x :: v ++ c :: u2, ?_⟩
        calc (u1 ++ x :: v ++ c :: u2) ++ r = u1 ++ x :: (v ++ c :: (u2 ++ r)) := by
              simp [List.append_assoc]
          _ = u1 ++ x :: (v ++ c :: r2) := by rw [hu2]
          _ = u1 ++ x :: t := by rw [← hv]
          _ = s := hu1
    · rw [if_neg hx] at h; cases h

theorem matchHyphAt_suffix (kw : List Char) (s r : List Char)
    (h : matchHyphAt kw s = some r) : ∃ u, u ++ r = s := by
  unfold matchHyphAt at h
  obtain ⟨u1, hu1, _⟩ := dropWhile_suffix isPySpace s
  cases hd : s.dropWhile isPySpace with
  | nil => rw [hd] at h; cases h
  | cons x t =>
    rw [hd] at h hu1
    dsimp only at h
    by_cases hx : x == '-'
    · rw [if_pos hx] at h
      by_cases hp : kw.isPrefixOf (t.dropWhile isPySpace)
      · rw [if_pos hp] at h
        simp only [Option.some.injEq] at h
        obtain ⟨u2, hu2, _⟩ := dropWhile_suffix isPySpace t
        obtain ⟨u3, hu3, _⟩ :=
          dropWhile_suffix (fun ch => !(ch == '\n')) ((t.dropWhile isPySpace).drop kw.length)
        rw [h] at hu3
        have hdrop : (t.dropWhile isPySpace).take kw.length ++
            (t.dropWhile isPySpace).drop kw.length = t.dropWhile isPySpace :=
          List.take_append_drop _ _
        refine ⟨u1 ++ x :: (u2 ++ ((t.dropWhile isPySpace).take kw.length ++ u3)), ?_⟩
        calc (u1 ++ x :: (u2 ++ ((t.dropWhile isPySpace).take kw.length ++ u3))) ++ r =
              u1 ++ x :: (u2 ++ ((t.dropWhile isPySpace).take kw.length ++ (u3 ++ r))) := by
              simp [List.append_assoc]
          _ = u1 ++ x :: (u2 ++ ((t.dropWhile isPySpace).take kw.length ++
                (t.dropWhile isPySpace).drop kw.length)) := by rw [hu3]
          _ = u1 ++ x :: (u2 ++ t.dropWhile isPySpace) := by rw [hdrop]
          _ = u1 ++ x :: t := by rw [hu2]
          _ = s := hu1
      · rw [if_neg hp] at h; cases h
    · rw [if_neg hx] at h; cases h

theorem matchPlainAt_suffix (kw : List Char) (s r : List Char)
    (h : matchPlainAt kw s = some r) : ∃ u, u ++ r = s := by
  unfold matchPlainAt at h
  obtain ⟨u1, hu1, _⟩ := dropWhile_suffix isPySpace s
  by_cases hp : kw.isPrefixOf (s.dropWhile isPySpace)
  · rw [if_pos hp] at h
    simp only [Option.some.injEq] at h
    obtain ⟨u3, hu3, _⟩ :=
      dropWhile_suffix (fun ch => !(ch == '\n')) ((s.dropWhile isPySpace).drop kw.length)
    rw [h] at hu3
    have hdrop : (s.dropWhile isPySpace).take kw.length ++
        (s.dropWhile isPySpace).drop kw.length = s.dropWhile isPySpace :=
      List.take_append_drop _ _
    refine ⟨u1 ++ ((s.dropWhile isPySpace).take kw.length ++ u3), ?_⟩
    calc (u1 ++ ((s.dropWhile isPySpace).take kw.length ++ u3)) ++ r =
          u1 ++ ((s.dropWhile isPySpace).take kw.length ++ (u3 ++ r)) := by
          simp [List.append_assoc]
      _ = u1 ++ ((s.dropWhile isPySpace).take kw.length ++
            (s.dropWhile isPySpace).drop kw.length) := by rw [hu3]
      _ = u1 ++ s.dropWhile isPySpace := by rw [hdrop]
      _ = s := hu1
  · rw [if_neg hp] at h; cases h

/-- The substitution output is a sublist of the input, given that every match
remainder is a suffix. -/
theorem subGo_sublist (m : List Char → Option (List Char))
    (hm : ∀ s r, m s = some r → ∃ u, u ++ r = s) :
    ∀ (fuel : Nat) (s : List Char), List.Sublist (subGo m fuel s) s := by
  intro fuel
  induction fuel with
  | zero => intro s; exact List.Sublist.refl s
  | succ fuel ih =>
    intro s
    cases s with
    | nil => exact List.Sublist.refl []
    | cons x t =>
      simp only [subGo]
      cases hmx : m (x :: t) with
      | some r =>
        obtain ⟨u, hu⟩ := hm (x :: t) r hmx
        have h2 : List.Sublist r (x :: t) := by
          rw [← hu]; exact List.sublist_append_right u r
        exact (ih r).trans h2
      | none => exact (ih t).cons₂ x

theorem subGo_nil (m : List Char → Option (List Char)) :
    ∀ fuel, subGo m fuel [] = [] := by
  intro fuel
  cases fuel with
  | zero => rfl
  | succ fuel => rfl

/-- On a newline-free list, `dropWhile (· != '\n')` consumes everything. -/
theorem dropWhile_ne_nl_eq_nil :
    ∀ (l : List Char), NoNL l → l.dropWhile (fun c => !(c == '\n')) = [] := by
  intro l
  induction l with
  | nil => intro _; rfl
  | cons x t ih =>
    intro h
    have hx : ¬ x = '\n' := h x (by simp)
    rw [List.dropWhile_cons_of_pos (by simpa using hx)]
    exact ih (fun c hc => h c (by simp [hc]))

/-- On newline-free input, a hyphen-marker match consumes the whole rest. -/
theorem matchHyphAt_noNL_rest (kw s r : List Char) (hnl : NoNL s)
    (h : matchHyphAt kw s = some r) : r = [] := by
  obtain ⟨u, hu⟩ := matchHyphAt_suffix kw s r h
  unfold matchHyphAt at h
  cases hd : s.dropWhile isPySpace with
  | nil => rw [hd] at h; cases h
  | cons x t =>
    rw [hd] at h
    dsimp only at h
    by_cases hx : x == '-'
    · rw [if_pos hx] at h
      by_cases hp : kw.isPrefixOf (t.dropWhile isPySpace)
      · rw [if_pos hp] at h
        simp only [Option.some.injEq] at h
        obtain ⟨u1, hu1, _⟩ := dropWhile_suffix isPySpace s
        rw [hd] at hu1
        have hnxt : NoNL (x :: t) := noNL_suffix hu1 hnl
        have hnt : NoNL t := fun c hc => hnxt c (by simp [hc])
        obtain ⟨u2, hu2, _⟩ := dropWhile_suffix isPySpace t
        have hnt' : NoNL (t.dropWhile isPySpace) := noNL_suffix hu2 hnt
        have hnd : NoNL ((t.dropWhile isPySpace).drop kw.length) := by
          have := List.take_append_drop kw.length (t.dropWhile isPySpace)
          exact noNL_suffix this hnt'
        rw [← h]
        exact dropWhile_ne_nl_eq_nil _ hnd
      · rw [if_neg hp] at h; cases h
    · rw [if_neg hx] at h; cases h

/-- On newline-free input, a plain-marker match consumes the whole rest. -/
theorem matchPlainAt_noNL_rest (kw s r : List Char) (hnl : NoNL s)
    (h : matchPlainAt kw s = some r) : r = [] := by
  unfold matchPlainAt at h
  by_cases hp : kw.isPrefixOf (s.dropWhile isPySpace)
  · rw [if_pos hp] at h
    simp only [Option.some.injEq] at h
    obtain ⟨u1, hu1, _⟩ := dropWhile_suffix isPySpace s
    have hns : NoNL (s.dropWhile isPySpace) := noNL_suffix hu1 hnl
    have hnd : NoNL ((s.dropWhile isPySpace).drop kw.length) := by
      have := List.take_append_drop kw.length (s.dropWhile isPySpace)
      exact noNL_suffix this hns
    rw [← h]
    exact dropWhile_ne_nl_eq_nil _ hnd
  · rw [if_neg hp] at h; cases h

/-- On newline-free input, a marker substitution returns a prefix of its input. -/
theorem subGo_noNL_prefix (m : List Char → Option (List Char))
    (hm : ∀ s r, NoNL s → m s = some r → r = []) :
    ∀ (fuel : Nat) (s : List Char), NoNL s → ∃ v, subGo m fuel s ++ v = s := by
  intro fuel
  induction fuel with
  | zero => intro s _; exact ⟨[], by simp [subGo]⟩
  | succ fuel ih =>
    intro s hnl
    cases s with
    | nil => exact ⟨[], rfl⟩
    | cons x t =>
      simp only [subGo]
      cases hmx : m (x :: t) with
      | some r =>
        have hr : r = [] := hm (x :: t) r hnl hmx
        subst hr
        refine ⟨x :: t, ?_⟩
        show subGo m fuel [] ++ (x :: t) = x :: t
        rw [subGo_nil]
        rfl
      | none =>
        obtain ⟨v, hv⟩ := ih t (fun c hc => hnl c (by simp [hc]))
        refine ⟨v, ?_⟩
        show (x :: subGo m fuel t) ++ v = x :: t
        simp [hv]

theorem isPrefixOf_exists :
    ∀ (p l : List Char), p.isPrefixOf l = true → ∃ r, l = p ++ r := by
  intro p
  induction p with
  | nil => intro l _; exact ⟨l, rfl⟩
  | cons c p ih =>
    intro l h
    cases l with
    | nil => simp [List.isPrefixOf] at h
    | cons d t =>
      simp only [List.isPrefixOf, Bool.and_eq_true, beq_iff_eq] at h
      obtain ⟨r, hr⟩ := ih t h.2
      exact ⟨r, by simp [h.1, hr]⟩

theorem isPrefixOf_append (p r : List Char) : p.isPrefixOf (p ++ r) = true := by
  induction p with
  | nil => simp [List.isPrefixOf]
  | cons c p ih => simp [List.isPrefixOf, ih]

/-- Occurrence of `-`‑whitespace‑keyword anywhere in the string: what the
pattern `\s*-\s*KW.*` can match. -/
def HasHyph (kw s : List Char) : Prop :=
  ∃ u w v, s = u ++ '-' :: (w ++ kw ++ v) ∧ ∀ x ∈ w, isPySpace x = true

/-- Occurrence of the keyword as a substring: what `\s*KW.*` can match. -/
def HasSubstr (kw s : List Char) : Prop :=
  ∃ u v, s = u ++ kw ++ v

theorem hasHyph_nil (kw : List Char) : ¬ HasHyph kw [] := by
  rintro ⟨u, w, v, he, _⟩
  cases u <;> simp at he

theorem hasSubstr_nil (kw : List Char) (hne : ¬ kw = []) : ¬ HasSubstr kw [] := by
  rintro ⟨u, v, he⟩
  cases u with
  | nil =>
    cases kw with
    | nil => exact hne rfl
    | cons c t => simp at he
  | cons c t => simp at he

theorem hasHyph_cons_elim {kw : List Char} {x : Char} {R : List Char}
    (h : HasHyph kw (x :: R)) :
    (x = '-' ∧ ∃ w v, R = w ++ kw ++ v ∧ ∀ y ∈ w, isPySpace y = true) ∨ HasHyph kw R := by
  obtain ⟨u, w, v, he, hw⟩ := h
  cases u with
  | nil =>
    simp only [List.nil_append, List.cons.injEq] at he
    exact Or.inl ⟨he.1, w, v, he.2, hw⟩
  | cons c u' =>
    simp only [List.cons_append, List.cons.injEq] at he
    exact Or.inr ⟨u', w, v, he.2, hw⟩

theorem hasSubstr_cons_elim {kw : List Char} {x : Char} {R : List Char}
    (h : HasSubstr kw (x :: R)) (hne : ¬ kw = []) :
    (∃ kt v, kw = x :: kt ∧ R = kt ++ v) ∨ HasSubstr kw R := by
  obtain ⟨u, v, he⟩ := h
  cases u with
  | nil =>
    cases kw with
    | nil => exact absurd rfl hne
    | cons k0 kt =>
      simp only [List.nil_append, List.cons_append, List.cons.injEq] at he
      exact Or.inl ⟨kt, v, by rw [he.1], he.2⟩
  | cons c u' =>
    simp only [List.cons_append, List.cons.injEq] at he
    exact Or.inr ⟨u', v, he.2⟩

theorem hasHyph_cons {kw : List Char} {x : Char} {R : List Char}
    (h : HasHyph kw R) : HasHyph kw (x :: R) := by
  obtain ⟨u, w, v, he, hw⟩ := h
  exact ⟨x :: u, w, v, by simp [he], hw⟩

theorem hasSubstr_cons {kw : List Char} {x : Char} {R : List Char}
    (h : HasSubstr kw R) : HasSubstr kw (x :: R) := by
  obtain ⟨u, v, he⟩ := h
  exact ⟨x :: u, v, by simp [he]⟩

/-- An occurrence in a prefix extends to the whole string. -/
theorem hasHyph_extend {kw p v s : List Char} (hp : p ++ v = s)
    (h : HasHyph kw p) : HasHyph kw s := by
  obtain ⟨u, w, v', he, hw⟩ := h
  subst hp
  exact ⟨u, w, v' ++ v, by simp [he], hw⟩

theorem hasSubstr_extend {kw p v s : List Char} (hp : p ++ v = s)
    (h : HasSubstr kw p) : HasSubstr kw s := by
  obtain ⟨u, v', he⟩ := h
  subst hp
  exact ⟨u, v' ++ v, by simp [he]⟩

/-- A pair match consumes at least the two bracket characters. -/
theorem matchPairAt_shrink (o c : Char) (s r : List Char)
    (h : matchPairAt o c s = some r) : r.length < s.length := by
  unfold matchPairAt at h
  obtain ⟨u1, hu1, _⟩ := dropWhile_suffix isPySpace s
  cases hd : s.dropWhile isPySpace with
  | nil => rw [hd] at h; cases h
  | cons x t =>
    rw [hd] at h hu1
    dsimp only at h
    by_cases hx : x == o
    · rw [if_pos hx] at h
      cases hf : findClose c t with
      | none => rw [hf] at h; cases h
      | some r2 =>
        rw [hf] at h
        simp only [Option.map_some', Option.some.injEq] at h
        obtain ⟨v, hv⟩ := findClose_decomp c t r2 hf
        obtain ⟨u2, hu2, _⟩ := dropWhile_suffix isPySpace r2
        rw [h] at hu2
        have hlen : s.length = u1.length + 1 + v.length + 1 + u2.length + r.length := by
          rw [← hu1, hv, ← hu2]
          simp [List.length_append]
          omega
        omega
    · rw [if_neg hx] at h; cases h

/-- A successful pair match exhibits the `o … c` pattern in the input. -/
theorem matchPairAt_some_pair (o c : Char) (s r : List Char)
    (h : matchPairAt o c s = some r) : List.Sublist [o, c] s := by
  unfold matchPairAt at h
  obtain ⟨u1, hu1, _⟩ := dropWhile_suffix isPySpace s
  cases hd : s.dropWhile isPySpace with
  | nil => rw [hd] at h; cases h
  | cons x t =>
    rw [hd] at h hu1
    dsimp only at h
    by_cases hx : x == o
    · rw [if_pos hx] at h
      cases hf : findClose c t with
      | none => rw [hf] at h; cases h
      | some r2 =>
        obtain ⟨v, hv⟩ := findClose_decomp c t r2 hf
        have hxo : x = o := beq_iff_eq.mp hx
        have hin : List.Sublist [o, c] (x :: t) := by
          rw [hxo, hv]
          refine List.Sublist.cons₂ o ?_
          rw [List.singleton_sublist]
          exact List.mem_append_right v (by simp)
        rw [← hu1]
        exact hin.trans (List.sublist_append_right u1 _)
    · rw [if_neg hx] at h; cases h

/-- A successful hyphen-marker match exhibits a marker occurrence. -/
theorem matchHyphAt_some_occ (kw : List Char) (s r : List Char)
    (h : matchHyphAt kw s = some r) : HasHyph kw s := by
  unfold matchHyphAt at h
  obtain ⟨u1, hu1, _⟩ := dropWhile_suffix isPySpace s
  cases hd : s.dropWhile isPySpace with
  | nil => rw [hd] at h; cases h
  | cons x t =>
    rw [hd] at h hu1
    dsimp only at h
    by_cases hx : x == '-'
    · rw [if_pos hx] at h
      by_cases hp : kw.isPrefixOf (t.dropWhile isPySpace)
      · obtain ⟨rest, hrest⟩ := isPrefixOf_exists kw _ hp
        obtain ⟨u2, hu2, hsp⟩ := dropWhile_suffix isPySpace t
        have hxh : x = '-' := beq_iff_eq.mp hx
        refine ⟨u1, u2, rest, ?_, hsp⟩
        rw [← hu1, hxh]
        congr 1
        congr 1
        rw [← hu2, hrest]
        simp
      · rw [if_neg hp] at h; cases h
    · rw [if_neg hx] at h; cases h

/-- A successful plain-marker match exhibits the keyword as a substring. -/
theorem matchPlainAt_some_occ (kw : List Char) (s r : List Char)
    (h : matchPlainAt kw s = some r) : HasSubstr kw s := by
  unfold matchPlainAt at h
  obtain ⟨u1, hu1, _⟩ := dropWhile_suffix isPySpace s
  by_cases hp : kw.isPrefixOf (s.dropWhile isPySpace)
  · obtain ⟨rest, hrest⟩ := isPrefixOf_exists kw _ hp
    refine ⟨u1, rest, ?_⟩
    rw [← hu1, hrest, List.append_assoc]
  · rw [if_neg hp] at h; cases h

/-- After the pair pass on a newline-free string, no `o` is left before a `c`. -/
theorem subGo_pair_establish (o c : Char) (ho : isPySpace o = false) :
    ∀ (fuel : Nat) (s : List Char), NoNL s → s.length ≤ fuel →
      ¬ List.Sublist [o, c] (subGo (matchPairAt o c) fuel s) := by
  intro fuel
  induction fuel with
  | zero =>
    intro s _ hl hsub
    have hs : s = [] := List.length_eq_zero.mp (Nat.le_zero.mp hl)
    subst hs
    simp [subGo] at hsub
  | succ fuel ih =>
    intro s hnl hlen hsub
    cases s with
    | nil => simp [subGo] at hsub
    | cons x t =>
      cases hmx : matchPairAt o c (x :: t) with
      | some r =>
        have heq : subGo (matchPairAt o c) (fuel + 1) (x :: t) =
            subGo (matchPairAt o c) fuel r := by
          simp only [subGo, hmx]
        rw [heq] at hsub
        have hshrink := matchPairAt_shrink o c (x :: t) r hmx
        obtain ⟨u, hu⟩ := matchPairAt_suffix o c (x :: t) r hmx
        have hlr : r.length ≤ fuel := by
          simp only [List.length_cons] at hlen hshrink
          omega
        exact ih r (noNL_suffix hu hnl) hlr hsub
      | none =>
        have heq : subGo (matchPairAt o c) (fuel + 1) (x :: t) =
            x :: subGo (matchPairAt o c) fuel t := by
          simp only [subGo, hmx]
        rw [heq] at hsub
        have hnt : NoNL t := fun d hd => hnl d (by simp [hd])
        have hlt : t.length ≤ fuel := by
          simp only [List.length_cons] at hlen
          omega
        cases hsub with
        | cons _ h' => exact ih t hnt hlt h'
        | cons₂ _ h' =>
          -- here x = o; the failed match means no close exists in t
          have hcin : c ∈ subGo (matchPairAt o c) fuel t :=
            List.singleton_sublist.mp h'
          have hsubl := subGo_sublist _ (matchPairAt_suffix o c) fuel t
          have hct : c ∈ t := hsubl.subset hcin
          have hdw : (o :: t).dropWhile isPySpace = o :: t :=
            List.dropWhile_cons_of_neg (by simp [ho])
          unfold matchPairAt at hmx
          rw [hdw] at hmx
          dsimp only at hmx
          rw [if_pos (by simp)] at hmx
          cases hf : findClose c t with
          | some r2 => rw [hf] at hmx; simp at hmx
          | none => exact absurd hct (findClose_none c t hf hnt)

/-- After a hyphen-marker pass on a newline-free string, no occurrence of that
marker remains. -/
theorem subGo_hyph_establish (kw : List Char) (k0 : Char) (kt : List Char)
    (hkw : kw = k0 :: kt) (hk0 : isPySpace k0 = false) :
    ∀ (fuel : Nat) (s : List Char), NoNL s → s.length ≤ fuel →
      ¬ HasHyph kw (subGo (matchHyphAt kw) fuel s) := by
  intro fuel
  induction fuel with
  | zero =>
    intro s _ hl hocc
    have hs : s = [] := List.length_eq_zero.mp (Nat.le_zero.mp hl)
    subst hs
    rw [subGo_nil] at hocc
    exact hasHyph_nil kw hocc
  | succ fuel ih =>
    intro s hnl hlen hocc
    cases s with
    | nil =>
      rw [subGo_nil] at hocc
      exact hasHyph_nil kw hocc
    | cons x t =>
      have hnt : NoNL t := fun d hd => hnl d (by simp [hd])
      have hlt : t.length ≤ fuel := by
        simp only [List.length_cons] at hlen
        omega
      cases hmx : matchHyphAt kw (x :: t) with
      | some r =>
        have hr : r = [] := matchHyphAt_noNL_rest kw (x :: t) r hnl hmx
        subst hr
        have heq : subGo (matchHyphAt kw) (fuel + 1) (x :: t) = [] := by
          simp only [subGo, hmx]
          exact subGo_nil _ fuel
        rw [heq] at hocc
        exact hasHyph_nil kw hocc
      | none =>
        have heq : subGo (matchHyphAt kw) (fuel + 1) (x :: t) =
            x :: subGo (matchHyphAt kw) fuel t := by
          simp only [subGo, hmx]
        rw [heq] at hocc
        rcases hasHyph_cons_elim hocc with ⟨hxh, w, v, hR, hw⟩ | hocc'
        · -- head occurrence: the match at the head should have succeeded
          obtain ⟨vt, hvt⟩ := subGo_noNL_prefix (matchHyphAt kw)
            (matchHyphAt_noNL_rest kw) fuel t hnt
          rw [hR] at hvt
          have ht : t = w ++ kw ++ (v ++ vt) := by
            rw [← hvt]
            simp [List.append_assoc]
          subst hxh
          have hdw : ('-' :: t).dropWhile isPySpace = '-' :: t :=
            List.dropWhile_cons_of_neg (by simp [isPySpace])
          have ht' : t.dropWhile isPySpace = kw ++ (v ++ vt) := by
            rw [ht, hkw]
            have := dropWhile_all_then isPySpace w k0 (kt ++ (v ++ vt)) hw hk0
            simpa [List.append_assoc] using this
          unfold matchHyphAt at hmx
          rw [hdw] at hmx
          dsimp only at hmx
          rw [if_pos (by simp), ht', if_pos (isPrefixOf_append kw (v ++ vt))] at hmx
          cases hmx
        · exact ih t hnt hlt hocc'

/-- After a plain-marker pass on a newline-free string, the keyword no longer
occurs as a substring. -/
theorem subGo_plain_establish (kw : List Char) (k0 : Char) (kt : List Char)
    (hkw : kw = k0 :: kt) (hk0 : isPySpace k0 = false) :
    ∀ (fuel : Nat) (s : List Char), NoNL s → s.length ≤ fuel →
      ¬ HasSubstr kw (subGo (matchPlainAt kw) fuel s) := by
  have hkne : ¬ kw = [] := by rw [hkw]; simp
  intro fuel
  induction fuel with
  | zero =>
    intro s _ hl hocc
    have hs : s = [] := List.length_eq_zero.mp (Nat.le_zero.mp hl)
    subst hs
    rw [subGo_nil] at hocc
    exact hasSubstr_nil kw hkne hocc
  | succ fuel ih =>
    intro s hnl hlen hocc
    cases s with
    | nil =>
      rw [subGo_nil] at hocc
      exact hasSubstr_nil kw hkne hocc
    | cons x t =>
      have hnt : NoNL t := fun d hd => hnl d (by simp [hd])
      have hlt : t.length ≤ fuel := by
        simp only [List.length_cons] at hlen
        omega
      cases hmx : matchPlainAt kw (x :: t) with
      | some r =>
        have hr : r = [] := matchPlainAt_noNL_rest kw (x :: t) r hnl hmx
        subst hr
        have heq : subGo (matchPlainAt kw) (fuel + 1) (x :: t) = [] := by
          simp only [subGo, hmx]
          exact subGo_nil _ fuel
        rw [heq] at hocc
        exact hasSubstr_nil kw hkne hocc
      | none =>
        have heq : subGo (matchPlainAt kw) (fuel + 1) (x :: t) =
            x :: subGo (matchPlainAt kw) fuel t := by
          simp only [subGo, hmx]
        rw [heq] at hocc
        rcases hasSubstr_cons_elim hocc hkne with ⟨kt', v, hkw', hR⟩ | hocc'
        · -- head occurrence: the match at the head should have succeeded
          obtain ⟨vt, hvt⟩ := subGo_noNL_prefix (matchPlainAt kw)
            (matchPlainAt_noNL_rest kw) fuel t hnt
          rw [hR] at hvt
          have ht : t = kt' ++ (v ++ vt) := by
            rw [← hvt]
            simp [List.append_assoc]
          have hx0 : x = k0 := by
            rw [hkw] at hkw'
            exact (List.cons.injEq _ _ _ _ ▸ hkw').1.symm
          have hkt : kt' = kt := by
            rw [hkw] at hkw'
            injection hkw' with h1 h2
            exact h2.symm
          have hdw : (x :: t).dropWhile isPySpace = x :: t := by
            refine List.dropWhile_cons_of_neg ?_
            rw [hx0]
            simp [hk0]
          unfold matchPlainAt at hmx
          rw [hdw] at hmx
          have hpre : kw.isPrefixOf (x :: t) = true := by
            have : x :: t = kw ++ (v ++ vt) := by
              rw [ht, hkw', List.cons_append]
            rw [this]
            exact isPrefixOf_append kw (v ++ vt)
          rw [if_pos hpre] at hmx
          cases hmx
        · exact ih t hnt hlt hocc'

/-- A pair pass is the identity when no `o` precedes a `c`. -/
theorem subGo_pair_id (o c : Char) :
    ∀ (fuel : Nat) (s : List Char), ¬ List.Sublist [o, c] s →
      subGo (matchPairAt o c) fuel s = s := by
  intro fuel
  induction fuel with
  | zero => intro s _; rfl
  | succ fuel ih =>
    intro s h
    cases s with
    | nil => rfl
    | cons x t =>
      cases hmx : matchPairAt o c (x :: t) with
      | some r => exact absurd (matchPairAt_some_pair o c (x :: t) r hmx) h
      | none =>
        have heq : subGo (matchPairAt o c) (fuel + 1) (x :: t) =
            x :: subGo (matchPairAt o c) fuel t := by
          simp only [subGo, hmx]
        rw [heq, ih t (fun hsub => h (hsub.cons x))]

/-- A hyphen-marker pass is the identity when the marker does not occur. -/
theorem subGo_hyph_id (kw : List Char) :
    ∀ (fuel : Nat) (s : List Char), ¬ HasHyph kw s →
      subGo (matchHyphAt kw) fuel s = s := by
  intro fuel
  induction fuel with
  | zero => intro s _; rfl
  | succ fuel ih =>
    intro s h
    cases s with
    | nil => rfl
    | cons x t =>
      cases hmx : matchHyphAt kw (x :: t) with
      | some r => exact absurd (matchHyphAt_some_occ kw (x :: t) r hmx) h
      | none =>
        have heq : subGo (matchHyphAt kw) (fuel + 1) (x :: t) =
            x :: subGo (matchHyphAt kw) fuel t := by
          simp only [subGo, hmx]
        rw [heq, ih t (fun hocc => h (hasHyph_cons hocc))]

/-- A plain-marker pass is the identity when the keyword does not occur. -/
theorem subGo_plain_id (kw : List Char) :
    ∀ (fuel : Nat) (s : List Char), ¬ HasSubstr kw s →
      subGo (matchPlainAt kw) fuel s = s := by
  intro fuel
  induction fuel with
  | zero => intro s _; rfl
  | succ fuel ih =>
    intro s h
    cases s with
    | nil => rfl
    | cons x t =>
      cases hmx : matchPlainAt kw (x :: t) with
      | some r => exact absurd (matchPlainAt_some_occ kw (x :: t) r hmx) h
      | none =>
        have heq : subGo (matchPlainAt kw) (fuel + 1) (x :: t) =
            x :: subGo (matchPlainAt kw) fuel t := by
          simp only [subGo, hmx]
        rw [heq, ih t (fun hocc => h (hasSubstr_cons hocc))]

theorem collapseGo_nil : ∀ fuel, collapseGo fuel [] = [] := by
  intro fuel
  cases fuel with
  | zero => rfl
  | succ fuel => rfl

theorem collapseGo_cons_nonspace (fuel : Nat) (x : Char) (t : List Char)
    (hx : isPySpace x = false) :
    collapseGo (fuel + 1) (x :: t) = x :: collapseGo fuel t := by
  simp [collapseGo, hx]

theorem collapseGo_cons_space_nil (fuel : Nat) (x : Char) (t : List Char)
    (hx : isPySpace x = true) (hd : t.dropWhile isPySpace = []) :
    collapseGo (fuel + 1) (x :: t) = [] := by
  simp [collapseGo, hx, hd]

theorem collapseGo_cons_space_cons (fuel : Nat) (x : Char) (t : List Char)
    (y : Char) (t' : List Char)
    (hx : isPySpace x = true) (hd : t.dropWhile isPySpace = y :: t') :
    collapseGo (fuel + 1) (x :: t) = ' ' :: collapseGo fuel (y :: t') := by
  simp [collapseGo, hx, hd]

theorem dropWhile_length_le (p : Char → Bool) (t : List Char) :
    (t.dropWhile p).length ≤ t.length := by
  obtain ⟨u, hu, _⟩ := dropWhile_suffix p t
  have h := congrArg List.length hu
  simp only [List.length_append] at h
  omega

/-- `collapseGo` does not depend on the fuel once it covers the input length. -/
theorem collapseGo_fuel_irrel :
    ∀ (f1 : Nat) (t : List Char) (f2 : Nat), t.length ≤ f1 → t.length ≤ f2 →
      collapseGo f1 t = collapseGo f2 t := by
  intro f1
  induction f1 with
  | zero =>
    intro t f2 h1 _
    have : t = [] := List.length_eq_zero.mp (Nat.le_zero.mp h1)
    subst this
    rw [collapseGo_nil, collapseGo_nil]
  | succ f1 ih =>
    intro t f2 h1 h2
    cases t with
    | nil => rw [collapseGo_nil, collapseGo_nil]
    | cons x t₂ =>
      obtain ⟨g, hg⟩ : ∃ g, f2 = g + 1 := by
        cases f2 with
        | zero => simp at h2
        | succ g => exact ⟨g, rfl⟩
      subst hg
      by_cases hx : isPySpace x
      · cases hd : t₂.dropWhile isPySpace with
        | nil =>
          rw [collapseGo_cons_space_nil f1 x t₂ hx hd,
            collapseGo_cons_space_nil g x t₂ hx hd]
        | cons y t₄ =>
          have hlt : (y :: t₄).length ≤ t₂.length := by
            rw [← hd]; exact dropWhile_length_le isPySpace t₂
          rw [collapseGo_cons_space_cons f1 x t₂ y t₄ hx hd,
            collapseGo_cons_space_cons g x t₂ y t₄ hx hd,
            ih (y :: t₄) g (by simp only [List.length_cons] at h1 hlt ⊢; omega)
              (by simp only [List.length_cons] at h2 hlt ⊢; omega)]
      · rw [collapseGo_cons_nonspace f1 x t₂ (by simpa using hx),
          collapseGo_cons_nonspace g x t₂ (by simpa using hx),
          ih t₂ g (by simp at h1 ⊢; omega) (by simp at h2 ⊢; omega)]

theorem collapseGo_length_le :
    ∀ (fuel : Nat) (t : List Char), (collapseGo fuel t).length ≤ t.length := by
  intro fuel
  induction fuel with
  | zero => intro t; exact Nat.le_refl _
  | succ fuel ih =>
    intro t
    cases t with
    | nil => rw [collapseGo_nil]
    | cons x t₂ =>
      by_cases hx : isPySpace x
      · cases hd : t₂.dropWhile isPySpace with
        | nil => rw [collapseGo_cons_space_nil fuel x t₂ hx hd]; simp
        | cons y t₄ =>
          rw [collapseGo_cons_space_cons fuel x t₂ y t₄ hx hd]
          have h1 := ih (y :: t₄)
          have h2 : (y :: t₄).length ≤ t₂.length := by
            rw [← hd]; exact dropWhile_length_le isPySpace t₂
          simp only [List.length_cons] at h1 h2 ⊢
          omega
      · rw [collapseGo_cons_nonspace fuel x t₂ (by simpa using hx)]
        have := ih t₂
        simp only [List.length_cons]
        omega

/-- On a nonempty input with a non-space head, `collapseGo` keeps that head. -/
theorem collapseGo_head :
    ∀ (fuel : Nat) (x : Char) (t : List Char), isPySpace x = false →
      collapseGo fuel (x :: t) = x :: (collapseGo fuel (x :: t)).tail := by
  intro fuel x t hx
  cases fuel with
  | zero => rfl
  | succ fuel => rw [collapseGo_cons_nonspace fuel x t hx]; rfl

/-- Idempotence of `collapseGo` on inputs with a non-space (or no) head. -/
theorem collapseGo_idem :
    ∀ (fuel : Nat) (t : List Char), t.length ≤ fuel →
      (t = [] ∨ ∃ x t₂, t = x :: t₂ ∧ isPySpace x = false) →
      ∀ (fuel2 : Nat), collapseGo fuel2 (collapseGo fuel t) = collapseGo fuel t := by
  intro fuel
  induction fuel with
  | zero =>
    intro t h1 _ fuel2
    have : t = [] := List.length_eq_zero.mp (Nat.le_zero.mp h1)
    subst this
    rw [collapseGo_nil, collapseGo_nil]
  | succ fuel ih =>
    intro t h1 hh fuel2
    rcases hh with he | ⟨x, t₂, he, hx⟩
    · subst he; rw [collapseGo_nil, collapseGo_nil]
    · subst he
      rw [collapseGo_cons_nonspace fuel x t₂ hx]
      cases fuel2 with
      | zero => rfl
      | succ f2 =>
        rw [collapseGo_cons_nonspace f2 x (collapseGo fuel t₂) hx]
        congr 1
        -- show collapseGo f2 (collapseGo fuel t₂) = collapseGo fuel t₂
        cases t₂ with
        | nil => rw [collapseGo_nil, collapseGo_nil]
        | cons y t₃ =>
          have hlt : (y :: t₃).length ≤ fuel := by
            simp only [List.length_cons] at h1 ⊢
            omega
          by_cases hy : isPySpace y
          · -- the inner input has a space head: unfold one more step
            obtain ⟨g, hg⟩ : ∃ g, fuel = g + 1 := by
              cases fuel with
              | zero => simp at hlt
              | succ g => exact ⟨g, rfl⟩
            subst hg
            cases hd : t₃.dropWhile isPySpace with
            | nil =>
              rw [collapseGo_cons_space_nil g y t₃ hy hd, collapseGo_nil]
            | cons z t₅ =>
              have hz : isPySpace z = false := dropWhile_head_false isPySpace t₃ z t₅ hd
              rw [collapseGo_cons_space_cons g y t₃ z t₅ hy hd]
              have hlt5 : (z :: t₅).length ≤ g := by
                have := dropWhile_length_le isPySpace t₃
                rw [hd] at this
                simp only [List.length_cons] at hlt this ⊢
                omega
              have hR : collapseGo g (z :: t₅) = collapseGo (g + 1) (z :: t₅) :=
                collapseGo_fuel_irrel g (z :: t₅) (g + 1) hlt5 (by omega)
              -- the continuation has a non-space head, so the outer pass keeps
              -- the single separator and recurses on a fixed point
              have hhead : collapseGo g (z :: t₅) =
                  z :: (collapseGo g (z :: t₅)).tail := collapseGo_head g z t₅ hz
              cases f2 with
              | zero => rfl
              | succ f2' =>
                have hdw2 : (collapseGo g (z :: t₅)).dropWhile isPySpace =
                    collapseGo g (z :: t₅) := by
                  rw [hhead]
                  exact List.dropWhile_cons_of_neg (by simp [hz])
                rw [collapseGo_cons_space_cons f2' ' ' (collapseGo g (z :: t₅))
                  z ((collapseGo g (z :: t₅)).tail) (by simp [isPySpace])
                  (hdw2.trans hhead)]
                rw [← hhead]
                congr 1
                rw [hR]
                exact ih (z :: t₅) (by omega) (Or.inr ⟨z, t₅, rfl, hz⟩) f2'
          · exact ih (y :: t₃) hlt (Or.inr ⟨y, t₃, rfl, by simpa using hy⟩) f2

/-- `' '.join(s.split())` is idempotent. -/
theorem collapse_collapse (s : List Char) : collapse (collapse s) = collapse s := by
  unfold collapse
  cases hd : s.dropWhile isPySpace with
  | nil =>
    rw [collapseGo_nil]
    simp [collapseGo_nil]
  | cons y d' =>
    have hy : isPySpace y = false := dropWhile_head_false isPySpace s y d' hd
    have hlen : (y :: d').length ≤ s.length := by
      rw [← hd]; exact dropWhile_length_le isPySpace s
    set C := collapseGo s.length (y :: d') with hC
    have hCh : C = y :: C.tail := collapseGo_head s.length y d' hy
    have hdwC : C.dropWhile isPySpace = C := by
      rw [hCh]
      exact List.dropWhile_cons_of_neg (by simp [hy])
    rw [hdwC]
    exact collapseGo_idem s.length (y :: d') hlen (Or.inr ⟨y, d', rfl, hy⟩) C.length

theorem filter_dropWhile_space (t : List Char) :
    (t.dropWhile isPySpace).filter (fun ch => !(isPySpace ch)) =
      t.filter (fun ch => !(isPySpace ch)) := by
  induction t with
  | nil => rfl
  | cons x t ih =>
    by_cases hx : isPySpace x
    · rw [List.dropWhile_cons_of_pos hx, ih, List.filter_cons_of_neg (by simp [hx])]
    · rw [List.dropWhile_cons_of_neg (by simpa using hx)]

theorem collapseGo_filter :
    ∀ (fuel : Nat) (t : List Char),
      (collapseGo fuel t).filter (fun ch => !(isPySpace ch)) =
        t.filter (fun ch => !(isPySpace ch)) := by
  intro fuel
  induction fuel with
  | zero => intro t; rfl
  | succ fuel ih =>
    intro t
    cases t with
    | nil => rw [collapseGo_nil]
    | cons x t₂ =>
      by_cases hx : isPySpace x
      · cases hd : t₂.dropWhile isPySpace with
        | nil =>
          rw [collapseGo_cons_space_nil fuel x t₂ hx hd,
            List.filter_cons_of_neg (by simp [hx])]
          rw [← filter_dropWhile_space t₂, hd]
        | cons y t₄ =>
          rw [collapseGo_cons_space_cons fuel x t₂ y t₄ hx hd,
            List.filter_cons_of_neg (by simp [isPySpace]),
            List.filter_cons_of_neg (by simp [hx]), ih (y :: t₄),
            ← filter_dropWhile_space t₂, hd]
      · rw [collapseGo_cons_nonspace fuel x t₂ (by simpa using hx),
          List.filter_cons_of_pos (by simpa using hx),
          List.filter_cons_of_pos (by simpa using hx), ih t₂]

theorem collapse_filter (s : List Char) :
    (collapse s).filter (fun ch => !(isPySpace ch)) =
      s.filter (fun ch => !(isPySpace ch)) := by
  unfold collapse
  rw [collapseGo_filter, filter_dropWhile_space]

/-- Pull a (non-space, non-space) ordered pair back through the collapse. -/
theorem pair_sublist_collapse {o c : Char} (ho : isPySpace o = false)
    (hc : isPySpace c = false) (s : List Char)
    (h : List.Sublist [o, c] (collapse s)) : List.Sublist [o, c] s := by
  have h1 : List.Sublist ([o, c].filter (fun ch => !(isPySpace ch)))
      ((collapse s).filter (fun ch => !(isPySpace ch))) := h.filter _
  rw [collapse_filter] at h1
  have h2 : [o, c].filter (fun ch => !(isPySpace ch)) = [o, c] := by
    simp [ho, hc]
  rw [h2] at h1
  exact h1.trans (List.filter_sublist s)

/-- Characters of the collapse come from the input or are the separator. -/
theorem collapseGo_mem :
    ∀ (fuel : Nat) (t : List Char) (ch : Char),
      ch ∈ collapseGo fuel t → ch ∈ t ∨ ch = ' ' := by
  intro fuel
  induction fuel with
  | zero => intro t ch h; exact Or.inl h
  | succ fuel ih =>
    intro t ch h
    cases t with
    | nil => rw [collapseGo_nil] at h; simp at h
    | cons x t₂ =>
      by_cases hx : isPySpace x
      · cases hd : t₂.dropWhile isPySpace with
        | nil =>
          rw [collapseGo_cons_space_nil fuel x t₂ hx hd] at h
          simp at h
        | cons y t₄ =>
          rw [collapseGo_cons_space_cons fuel x t₂ y t₄ hx hd] at h
          rcases List.mem_cons.mp h with he | he
          · exact Or.inr he
          · rcases ih (y :: t₄) ch he with hm | hs
            · obtain ⟨u, hu, _⟩ := dropWhile_suffix isPySpace t₂
              rw [hd] at hu
              refine Or.inl (List.mem_cons_of_mem x ?_)
              rw [← hu]
              exact List.mem_append_right u hm
            · exact Or.inr hs
      · rw [collapseGo_cons_nonspace fuel x t₂ (by simpa using hx)] at h
        rcases List.mem_cons.mp h with he | he
        · exact Or.inl (by simp [he])
        · rcases ih t₂ ch he with hm | hs
          · exact Or.inl (by simp [hm])
          · exact Or.inr hs

theorem noNL_collapse {s : List Char} (h : NoNL s) : NoNL (collapse s) := by
  intro ch hch he
  unfold collapse at hch
  rcases collapseGo_mem s.length (s.dropWhile isPySpace) ch hch with hm | hs
  · obtain ⟨u, hu, _⟩ := dropWhile_suffix isPySpace s
    exact h ch (by rw [← hu]; exact List.mem_append_right u hm) he
  · rw [hs] at he
    cases he

theorem hasSubstr_of_suffix {kw u t s : List Char} (hp : u ++ t = s)
    (h : HasSubstr kw t) : HasSubstr kw s := by
  obtain ⟨u', v, he⟩ := h
  subst hp
  exact ⟨u ++ u', v, by simp [he]⟩

theorem hasHyph_of_suffix {kw u t s : List Char} (hp : u ++ t = s)
    (h : HasHyph kw t) : HasHyph kw s := by
  obtain ⟨u', w, v, he, hw⟩ := h
  subst hp
  exact ⟨u ++ u', w, v, by simp [he], hw⟩

/-- Pull a non-space word prefix back through `collapseGo`. -/
theorem collapseGo_pull :
    ∀ (kw : List Char), (∀ x ∈ kw, isPySpace x = false) →
      ∀ (fuel : Nat) (t v : List Char), collapseGo fuel t = kw ++ v →
        ∃ v2, t = kw ++ v2 := by
  intro kw
  induction kw with
  | nil => intro _ fuel t v _; exact ⟨t, rfl⟩
  | cons k0 kt ih =>
    intro hns fuel t v h
    have hk0 : isPySpace k0 = false := hns k0 (by simp)
    cases fuel with
    | zero => exact ⟨v, h⟩
    | succ fuel =>
      cases t with
      | nil => rw [collapseGo_nil] at h; simp at h
      | cons x t₂ =>
        by_cases hx : isPySpace x
        · cases hd : t₂.dropWhile isPySpace with
          | nil =>
            rw [collapseGo_cons_space_nil fuel x t₂ hx hd] at h
            simp at h
          | cons y t₄ =>
            rw [collapseGo_cons_space_cons fuel x t₂ y t₄ hx hd] at h
            have : ' ' = k0 := by
              have := congrArg (fun l => l.headD ' ') h
              simpa using this
            rw [← this] at hk0
            simp [isPySpace] at hk0
        · rw [collapseGo_cons_nonspace fuel x t₂ (by simpa using hx)] at h
          simp only [List.cons_append, List.cons.injEq] at h
          obtain ⟨v2, hv2⟩ := ih (fun z hz => hns z (by simp [hz])) fuel t₂ v h.2
          exact ⟨v2, by simp [h.1, hv2]⟩

/-- Pull a space-run-then-word occurrence back through `collapseGo`. -/
theorem collapseGo_pull_sp (kw : List Char) (hns : ∀ x ∈ kw, isPySpace x = false) :
    ∀ (w : List Char), (∀ x ∈ w, isPySpace x = true) → ¬ w = [] →
      ∀ (fuel : Nat) (t v : List Char), collapseGo fuel t = w ++ kw ++ v →
        ∃ w2 v2, t = w2 ++ kw ++ v2 ∧ ∀ x ∈ w2, isPySpace x = true := by
  intro w
  induction w with
  | nil => intro _ hne; exact absurd rfl hne
  | cons c0 w' ih =>
    intro hw _ fuel t v h
    cases fuel with
    | zero => exact ⟨c0 :: w', v, h, hw⟩
    | succ fuel =>
      cases t with
      | nil => rw [collapseGo_nil] at h; simp at h
      | cons x t₂ =>
        by_cases hx : isPySpace x
        · cases hd : t₂.dropWhile isPySpace with
          | nil =>
            rw [collapseGo_cons_space_nil fuel x t₂ hx hd] at h
            simp at h
          | cons y t₄ =>
            rw [collapseGo_cons_space_cons fuel x t₂ y t₄ hx hd] at h
            simp only [List.cons_append, List.cons.injEq] at h
            obtain ⟨u, hu, hsp⟩ := dropWhile_suffix isPySpace t₂
            rw [hd] at hu
            cases w' with
            | nil =>
              simp only [List.nil_append] at h
              obtain ⟨v2, hv2⟩ := collapseGo_pull kw hns fuel (y :: t₄) v h.2
              refine ⟨x :: u, v2, ?_, ?_⟩
              · rw [← hu, hv2]; simp
              · intro z hz
                rcases List.mem_cons.mp hz with he | he
                · subst he; exact hx
                · exact hsp z he
            | cons c1 w'' =>
              obtain ⟨w2, v2, hv2, hw2⟩ := ih (fun z hz => hw z (by simp [hz]))
                (by simp) fuel (y :: t₄) v h.2
              refine ⟨x :: (u ++ w2), v2, ?_, ?_⟩
              · rw [← hu, hv2]; simp
              · intro z hz
                rcases List.mem_cons.mp hz with he | he
                · subst he; exact hx
                · rcases List.mem_append.mp he with hm | hm
                  · exact hsp z hm
                  · exact hw2 z hm
        · rw [collapseGo_cons_nonspace fuel x t₂ (by simpa using hx)] at h
          simp only [List.cons_append, List.cons.injEq] at h
          rw [← h.1] at hw
          have := hw x (by simp)
          simp [this] at hx

/-- A keyword substring of the collapse pulls back to the input. -/
theorem hasSubstr_collapseGo (kw : List Char) (hns : ∀ x ∈ kw, isPySpace x = false)
    (hkne : ¬ kw = []) :
    ∀ (fuel : Nat) (t : List Char),
      HasSubstr kw (collapseGo fuel t) → HasSubstr kw t := by
  intro fuel
  induction fuel with
  | zero => intro t h; exact h
  | succ fuel ih =>
    intro t h
    cases t with
    | nil => rw [collapseGo_nil] at h; exact absurd h (hasSubstr_nil kw hkne)
    | cons x t₂ =>
      by_cases hx : isPySpace x
      · cases hd : t₂.dropWhile isPySpace with
        | nil =>
          rw [collapseGo_cons_space_nil fuel x t₂ hx hd] at h
          exact absurd h (hasSubstr_nil kw hkne)
        | cons y t₄ =>
          rw [collapseGo_cons_space_cons fuel x t₂ y t₄ hx hd] at h
          rcases hasSubstr_cons_elim h hkne with ⟨kt, v, hkw', _⟩ | h'
          · have : isPySpace ' ' = false := hns ' ' (by rw [hkw']; simp)
            simp [isPySpace] at this
          · obtain ⟨u, hu, _⟩ := dropWhile_suffix isPySpace t₂
            rw [hd] at hu
            exact hasSubstr_cons (hasSubstr_of_suffix hu (ih (y :: t₄) h'))
      · rw [collapseGo_cons_nonspace fuel x t₂ (by simpa using hx)] at h
        rcases hasSubstr_cons_elim h hkne with ⟨kt, v, hkw', hR⟩ | h'
        · obtain ⟨v2, hv2⟩ := collapseGo_pull kt
            (fun z hz => hns z (by rw [hkw']; simp [hz])) fuel t₂ v hR
          exact ⟨[], v2, by rw [hkw', hv2]; simp⟩
        · exact hasSubstr_cons (ih t₂ h')

/-- A hyphen-marker occurrence in the collapse pulls back to the input. -/
theorem hasHyph_collapseGo (kw : List Char) (hns : ∀ x ∈ kw, isPySpace x = false)
    (hkne : ¬ kw = []) :
    ∀ (fuel : Nat) (t : List Char),
      HasHyph kw (collapseGo fuel t) → HasHyph kw t := by
  intro fuel
  induction fuel with
  | zero => intro t h; exact h
  | succ fuel ih =>
    intro t h
    cases t with
    | nil => rw [collapseGo_nil] at h; exact absurd h (hasHyph_nil kw)
    | cons x t₂ =>
      by_cases hx : isPySpace x
      · cases hd : t₂.dropWhile isPySpace with
        | nil =>
          rw [collapseGo_cons_space_nil fuel x t₂ hx hd] at h
          exact absurd h (hasHyph_nil kw)
        | cons y t₄ =>
          rw [collapseGo_cons_space_cons fuel x t₂ y t₄ hx hd] at h
          rcases hasHyph_cons_elim h with ⟨hsp, _⟩ | h'
          · cases hsp
          · obtain ⟨u, hu, _⟩ := dropWhile_suffix isPySpace t₂
            rw [hd] at hu
            exact hasHyph_cons (hasHyph_of_suffix hu (ih (y :: t₄) h'))
      · rw [collapseGo_cons_nonspace fuel x t₂ (by simpa using hx)] at h
        rcases hasHyph_cons_elim h with ⟨hxh, w, v, hR, hw⟩ | h'
        · subst hxh
          cases w with
          | nil =>
            simp only [List.nil_append] at hR
            obtain ⟨v2, hv2⟩ := collapseGo_pull kw hns fuel t₂ v hR
            exact ⟨[], [], v2, by rw [hv2]; simp, by simp⟩
          | cons c0 w' =>
            obtain ⟨w2, v2, hv2, hw2⟩ := collapseGo_pull_sp kw hns (c0 :: w') hw
              (by simp) fuel t₂ v hR
            exact ⟨[], w2, v2, by rw [hv2]; simp, hw2⟩
        · exact hasHyph_cons (ih t₂ h')

theorem hasSubstr_collapse {kw s : List Char} (hns : ∀ x ∈ kw, isPySpace x = false)
    (hkne : ¬ kw = []) (h : HasSubstr kw (collapse s)) : HasSubstr kw s := by
  unfold collapse at h
  obtain ⟨u, hu, _⟩ := dropWhile_suffix isPySpace s
  exact hasSubstr_of_suffix hu
    (hasSubstr_collapseGo kw hns hkne s.length (s.dropWhile isPySpace) h)

theorem hasHyph_collapse {kw s : List Char} (hns : ∀ x ∈ kw, isPySpace x = false)
    (hkne : ¬ kw = []) (h : HasHyph kw (collapse s)) : HasHyph kw s := by
  unfold collapse at h
  obtain ⟨u, hu, _⟩ := dropWhile_suffix isPySpace s
  exact hasHyph_of_suffix hu
    (hasHyph_collapseGo kw hns hkne s.length (s.dropWhile isPySpace) h)

/-- A scalar value below the surrogate range is kept by `Char.ofNat`. -/
theorem toNat_ofNat_lt (n : Nat) (h : n < 55296) : (Char.ofNat n).toNat = n := by
  have hv : Nat.isValidChar n := Or.inl h
  unfold Char.ofNat
  rw [dif_pos hv]
  rfl

theorem pyLowerChar_idem (c : Char) : pyLowerChar (pyLowerChar c) = pyLowerChar c := by
  unfold pyLowerChar
  by_cases h : 65 ≤ c.toNat ∧ c.toNat ≤ 90
  · rw [if_pos h]
    have ht : (Char.ofNat (c.toNat + 32)).toNat = c.toNat + 32 :=
      toNat_ofNat_lt _ (by omega)
    rw [if_neg (by omega)]
  · rw [if_neg h, if_neg h]

theorem pyLowerChar_ne_nl {c : Char} (h : ¬ c = '\n') : ¬ pyLowerChar c = '\n' := by
  unfold pyLowerChar
  by_cases hr : 65 ≤ c.toNat ∧ c.toNat ≤ 90
  · rw [if_pos hr]
    intro he
    have ht : (Char.ofNat (c.toNat + 32)).toNat = c.toNat + 32 :=
      toNat_ofNat_lt _ (by omega)
    have h2 : (Char.ofNat (c.toNat + 32)).toNat = Char.toNat '\n' := congrArg Char.toNat he
    rw [ht] at h2
    have h3 : Char.toNat '\n' = 10 := rfl
    omega
  · rw [if_neg hr]
    exact h

theorem noNL_map_lower {s : List Char} (h : NoNL s) : NoNL (s.map pyLowerChar) := by
  intro c hc
  obtain ⟨d, hd, he⟩ := List.mem_map.mp hc
  rw [← he]
  exact pyLowerChar_ne_nl (h d hd)

/-- All characters are fixed points of the lowercase map. -/
def Low (l : List Char) : Prop := ∀ c ∈ l, pyLowerChar c = c

theorem low_map_lower (s : List Char) : Low (s.map pyLowerChar) := by
  intro c hc
  obtain ⟨d, _, he⟩ := List.mem_map.mp hc
  rw [← he]
  exact pyLowerChar_idem d

theorem low_sublist {s t : List Char} (h : List.Sublist t s) (hs : Low s) : Low t :=
  fun c hc => hs c (h.subset hc)

theorem map_lower_eq_self {l : List Char} (h : Low l) : l.map pyLowerChar = l := by
  induction l with
  | nil => rfl
  | cons c t ih =>
    simp only [List.map_cons]
    rw [h c (by simp), ih (fun d hd => h d (by simp [hd]))]

theorem low_collapse {s : List Char} (h : Low s) : Low (collapse s) := by
  intro c hc
  unfold collapse at hc
  rcases collapseGo_mem s.length (s.dropWhile isPySpace) c hc with hm | hs
  · obtain ⟨u, hu, _⟩ := dropWhile_suffix isPySpace s
    exact h c (by rw [← hu]; exact List.mem_append_right u hm)
  · rw [hs]
    decide

/-- The normalizer pipeline, written out. -/
theorem normalizeTitleL_eq (s : List Char) :
    normalizeTitleL s =
      collapse (subAll (matchPlainAt "ft.".data)
        (subAll (matchPlainAt "feat.".data)
          (subAll (matchHyphAt "live".data)
            (subAll (matchHyphAt "remix".data)
              (subAll (matchHyphAt "remaster".data)
                (subAll (matchPairAt '[' ']')
                  (subAll (matchPairAt '(' ')') (s.map pyLowerChar)))))))) := rfl

/-- The normalizer is idempotent on newline-free input: every pattern is fully
purged by its own pass, later passes only shrink the string in ways that cannot
recreate a purged pattern, and whitespace collapse is idempotent. -/
theorem normalizeTitleL_idem {s : List Char} (hnl : NoNL s) :
    normalizeTitleL (normalizeTitleL s) = normalizeTitleL s := by
  rw [normalizeTitleL_eq s]
  set s1 := s.map pyLowerChar with hs1
  set s2 := subAll (matchPairAt '(' ')') s1 with hs2
  set s3 := subAll (matchPairAt '[' ']') s2 with hs3
  set s4 := subAll (matchHyphAt "remaster".data) s3 with hs4
  set s5 := subAll (matchHyphAt "remix".data) s4 with hs5
  set s6 := subAll (matchHyphAt "live".data) s5 with hs6
  set s7 := subAll (matchPlainAt "feat.".data) s6 with hs7
  set s8 := subAll (matchPlainAt "ft.".data) s7 with hs8
  have sub21 : List.Sublist s2 s1 := subGo_sublist _ (matchPairAt_suffix '(' ')') _ _
  have sub32 : List.Sublist s3 s2 := subGo_sublist _ (matchPairAt_suffix '[' ']') _ _
  have sub43 : List.Sublist s4 s3 :=
    subGo_sublist _ (matchHyphAt_suffix "remaster".data) _ _
  have sub54 : List.Sublist s5 s4 :=
    subGo_sublist _ (matchHyphAt_suffix "remix".data) _ _
  have sub65 : List.Sublist s6 s5 :=
    subGo_sublist _ (matchHyphAt_suffix "live".data) _ _
  have sub76 : List.Sublist s7 s6 :=
    subGo_sublist _ (matchPlainAt_suffix "feat.".data) _ _
  have sub87 : List.Sublist s8 s7 :=
    subGo_sublist _ (matchPlainAt_suffix "ft.".data) _ _
  have h1 : NoNL s1 := noNL_map_lower hnl
  have h2 : NoNL s2 := noNL_sublist sub21 h1
  have h3 : NoNL s3 := noNL_sublist sub32 h2
  have h4 : NoNL s4 := noNL_sublist sub43 h3
  have h5 : NoNL s5 := noNL_sublist sub54 h4
  have h6 : NoNL s6 := noNL_sublist sub65 h5
  have h7 : NoNL s7 := noNL_sublist sub76 h6
  have h8 : NoNL s8 := noNL_sublist sub87 h7
  have pre54 : ∃ v, s5 ++ v = s4 :=
    subGo_noNL_prefix _ (matchHyphAt_noNL_rest "remix".data) s4.length s4 h4
  have pre65 : ∃ v, s6 ++ v = s5 :=
    subGo_noNL_prefix _ (matchHyphAt_noNL_rest "live".data) s5.length s5 h5
  have pre76 : ∃ v, s7 ++ v = s6 :=
    subGo_noNL_prefix _ (matchPlainAt_noNL_rest "feat.".data) s6.length s6 h6
  have pre87 : ∃ v, s8 ++ v = s7 :=
    subGo_noNL_prefix _ (matchPlainAt_noNL_rest "ft.".data) s7.length s7 h7
  obtain ⟨v54, hv54⟩ := pre54
  obtain ⟨v65, hv65⟩ := pre65
  obtain ⟨v76, hv76⟩ := pre76
  obtain ⟨v87, hv87⟩ := pre87
  have hp1 : ¬ List.Sublist ['(', ')'] s2 :=
    subGo_pair_establish '(' ')' (by decide) s1.length s1 h1 le_rfl
  have hp2 : ¬ List.Sublist ['[', ']'] s3 :=
    subGo_pair_establish '[' ']' (by decide) s2.length s2 h2 le_rfl
  have hh3 : ¬ HasHyph "remaster".data s4 :=
    subGo_hyph_establish "remaster".data 'r' "emaster".data rfl (by decide)
      s3.length s3 h3 le_rfl
  have hh4 : ¬ HasHyph "remix".data s5 :=
    subGo_hyph_establish "remix".data 'r' "emix".data rfl (by decide)
      s4.length s4 h4 le_rfl
  have hh5 : ¬ HasHyph "live".data s6 :=
    subGo_hyph_establish "live".data 'l' "ive".data rfl (by decide)
      s5.length s5 h5 le_rfl
  have hq6 : ¬ HasSubstr "feat.".data s7 :=
    subGo_plain_establish "feat.".data 'f' "eat.".data rfl (by decide)
      s6.length s6 h6 le_rfl
  have hq7 : ¬ HasSubstr "ft.".data s8 :=
    subGo_plain_establish "ft.".data 'f' "t.".data rfl (by decide)
      s7.length s7 h7 le_rfl
  have hp1c : ¬ List.Sublist ['(', ')'] (collapse s8) := by
    intro h
    have h8' := pair_sublist_collapse (by decide) (by decide) s8 h
    exact hp1 ((((((h8'.trans sub87).trans sub76).trans sub65).trans sub54).trans
      sub43).trans sub32)
  have hp2c : ¬ List.Sublist ['[', ']'] (collapse s8) := by
    intro h
    have h8' := pair_sublist_collapse (by decide) (by decide) s8 h
    exact hp2 (((((h8'.trans sub87).trans sub76).trans sub65).trans sub54).trans sub43)
  have hh3c : ¬ HasHyph "remaster".data (collapse s8) := by
    intro h
    have o8 : HasHyph "remaster".data s8 := hasHyph_collapse (by decide) (by decide) h
    have o7 : HasHyph "remaster".data s7 := hasHyph_extend hv87 o8
    have o6 : HasHyph "remaster".data s6 := hasHyph_extend hv76 o7
    have o5 : HasHyph "remaster".data s5 := hasHyph_extend hv65 o6
    exact hh3 (hasHyph_extend hv54 o5)
  have hh4c : ¬ HasHyph "remix".data (collapse s8) := by
    intro h
    have o8 : HasHyph "remix".data s8 := hasHyph_collapse (by decide) (by decide) h
    have o7 : HasHyph "remix".data s7 := hasHyph_extend hv87 o8
    have o6 : HasHyph "remix".data s6 := hasHyph_extend hv76 o7
    exact hh4 (hasHyph_extend hv65 o6)
  have hh5c : ¬ HasHyph "live".data (collapse s8) := by
    intro h
    have o8 : HasHyph "live".data s8 := hasHyph_collapse (by decide) (by decide) h
    have o7 : HasHyph "live".data s7 := hasHyph_extend hv87 o8
    exact hh5 (hasHyph_extend hv76 o7)
  have hq6c : ¬ HasSubstr "feat.".data (collapse s8) := by
    intro h
    have o8 : HasSubstr "feat.".data s8 := hasSubstr_collapse (by decide) (by decide) h
    exact hq6 (hasSubstr_extend hv87 o8)
  have hq7c : ¬ HasSubstr "ft.".data (collapse s8) :=
    fun h => hq7 (hasSubstr_collapse (by decide) (by decide) h)
  have hlowC : Low (collapse s8) :=
    low_collapse (low_sublist ((((((sub87.trans sub76).trans sub65).trans sub54).trans
      sub43).trans sub32).trans sub21) (low_map_lower s))
  rw [normalizeTitleL_eq (collapse s8)]
  rw [map_lower_eq_self hlowC]
  rw [show subAll (matchPairAt '(' ')') (collapse s8) = collapse s8 from
    subGo_pair_id '(' ')' _ _ hp1c]
  rw [show subAll (matchPairAt '[' ']') (collapse s8) = collapse s8 from
    subGo_pair_id '[' ']' _ _ hp2c]
  rw [show subAll (matchHyphAt "remaster".data) (collapse s8) = collapse s8 from
    subGo_hyph_id "remaster".data _ _ hh3c]
  rw [show subAll (matchHyphAt "remix".data) (collapse s8) = collapse s8 from
    subGo_hyph_id "remix".data _ _ hh4c]
  rw [show subAll (matchHyphAt "live".data) (collapse s8) = collapse s8 from
    subGo_hyph_id "live".data _ _ hh5c]
  rw [show subAll (matchPlainAt "feat.".data) (collapse s8) = collapse s8 from
    subGo_plain_id "feat.".data _ _ hq6c]
  rw [show subAll (matchPlainAt "ft.".data) (collapse s8) = collapse s8 from
    subGo_plain_id "ft.".data _ _ hq7c]
  exact collapse_collapse s8

/-- C5 counterexample: the normalizer is NOT idempotent on strings containing a
newline.  `.` in the removal patterns does not match `'\n'`, so the pair in
`"(a\nb)"` survives the first pass; whitespace collapse then turns the newline
into a space, and the second pass removes the whole string. -/
theorem C5_counterexample :
    normalize_title "(a\nb)" = "(a b)" ∧
    normalize_title (normalize_title "(a\nb)") = "" ∧
    ¬ normalize_title (normalize_title "(a\nb)") = normalize_title "(a\nb)" :=
  ⟨rfl, rfl, by decide⟩

/-- C5 (amended): the title normalizer is idempotent on every newline-free
input string; the unrestricted claim fails on strings with newlines. -/
theorem C5_amended (x : String) (h : ∀ c ∈ x.data, ¬ c = '\n') :
    normalize_title (normalize_title x) = normalize_title x := by
  have h2 : normalizeTitleL (normalizeTitleL x.data) = normalizeTitleL x.data :=
    normalizeTitleL_idem (s := x.data) h
  unfold normalize_title
  have hd : (String.mk (normalizeTitleL x.data)).data = normalizeTitleL x.data := rfl
  rw [hd, h2]

/-- C5 witness: the amended idempotence at a concrete title. -/
theorem C5_amended_witness :
    normalize_title (normalize_title "Song (Live) [2011] - Remix ft. X") =
      normalize_title "Song (Live) [2011] - Remix ft. X" :=
  C5_amended "Song (Live) [2011] - Remix ft. X" (by decide)

end SpotifyWorks
